import Mathlib

set_option autoImplicit false

/-!
Shallow embedding of `src/dqnroute/conveyor_model.py` (module
`dqnroute.conveyor_model`): the conveyor state model with its ordered
object-position store, checkpoint table, lifecycle automaton and the
mutation operations `setSpeed`, `putObject`, `removeObject`, `skipTime`,
`resume`, `pause`, `startResolving`, `endResolving`, plus `checkpointPos`.

Positions and times are modelled as exact rationals.  Python's
`round(x, 5)` on binary floats never meets an exact decimal halfway case
(an odd multiple of 10^-5/2 has a factor 5^5 in its reduced denominator
and hence is not a dyadic rational, so no float equals it); on all
float-representable inputs decimal rounding to the nearest value is
therefore exact, and we model `round(x, 5)` as nearest-integer rounding
of `x * 10^5` divided by `10^5`.

Python methods mutate `self` in place and raise exceptions; we model each
operation as a function returning the post-state together with an
`Except` result, where the post-state records exactly the mutations the
Python object has undergone at the point the exception (if any) was
raised.  Python `dict`s are modelled as insertion-ordered association
lists with unique keys.
-/

namespace Dqnroute

/-- Type `AgentId` from `dqnroute.utils`: a `(kind, number)` pair such as
`('world', 0)`. -/
abbrev AgentId := String × ℤ

/-- Checkpoint identifiers are `(kind, number)` pairs (e.g. `('conv_end', -1)`);
`checkpointPos` inspects `cp[0]`. -/
abbrev CpId := String × ℤ

/-- Constant `POS_ROUND_DIGITS = 5`. -/
def POS_ROUND_DIGITS : ℕ := 5

/-- Scaling factor `10 ^ POS_ROUND_DIGITS` of position rounding. -/
def posScale : ℚ := 100000

/-- Function `round(pos, POS_ROUND_DIGITS)`: round to the nearest multiple
of `10^-5`. -/
def roundPos (x : ℚ) : ℚ := (round (x * posScale) : ℤ) / posScale

/-- Message of the `putObject` id assert. -/
def msgClash : String := "Clashing object ID!"

/-- Message of the `setSpeed` range assert. -/
def msgSpeed : String := "Speed is not in [0, max_speed]!"

/-- Message of the `search_pos` nonempty assert. -/
def msgSearch : String := "what are you gonna find pal?!"

/-- Message of the `pause` time assert. -/
def msgPause : String := "Pause before resume??"

/-- Reserved first component of the end-of-segment checkpoint identifier. -/
def strConvEnd : String := "conv_end"

/-- States of `_model_automata`. -/
inductive AutomState where
  | pristine | moving | dirty | resolving | resolved
deriving DecidableEq, Repr

/-- Actions of `_model_automata`. -/
inductive AutomAction where
  | resume | pause | change | start_resolving | end_resolving
deriving DecidableEq, Repr

/-- The transition table `_model_automata`; `none` encodes the `KeyError`
that `_stateTransfer` turns into an `AutomataException`. -/
def _model_automata : AutomState → AutomAction → Option AutomState
  | .pristine, .resume => some .moving
  | .pristine, .change => some .dirty
  | .moving, .pause => some .pristine
  | .dirty, .change => some .dirty
  | .dirty, .start_resolving => some .resolving
  | .resolving, .change => some .resolving
  | .resolving, .end_resolving => some .resolved
  | .resolved, .resume => some .moving
  | _, _ => none

/-- The exceptions the model can raise: `CollisionException` (with its
`obj1`, `obj2`, `pos`, `handler` fields), `AutomataException` (invalid
`action` in `state`), `AssertionError` with its message, and the raw
`KeyError` / `TypeError` of misused `dict` / `list.pop` calls. -/
inductive ModelError (α : Type) where
  | collision (obj1 obj2 : α) (pos : ℚ) (handler : AgentId)
  | automata (action : AutomAction) (state : AutomState)
  | assertion (msg : String)
  | keyError
  | typeError
deriving DecidableEq

/-- Python `key in dict`. -/
def dictContains {κ β : Type} [DecidableEq κ] (d : List (κ × β)) (k : κ) : Bool :=
  d.any (fun e => e.1 = k)

/-- Python `dict[key]` as an `Option` (`none` is a `KeyError`). -/
def dictGet {κ β : Type} [DecidableEq κ] (d : List (κ × β)) (k : κ) : Option β :=
  match d with
  | [] => none
  | e :: rest => if e.1 = k then some e.2 else dictGet rest k

/-- Python `dict[key] = v`: replace in place if the key exists, else append
(insertion order). -/
def dictSet {κ β : Type} [DecidableEq κ] (d : List (κ × β)) (k : κ) (v : β) :
    List (κ × β) :=
  if dictContains d k then d.map (fun e => if e.1 = k then (k, v) else e)
  else d ++ [(k, v)]

/-- Python `dict.pop(key)`: the value and the dictionary without the key
(`none` is a `KeyError`).  Keys are unique, so erasing the first match
erases the key. -/
def dictPop {κ β : Type} [DecidableEq κ] (d : List (κ × β)) (k : κ) :
    Option (β × List (κ × β)) :=
  match dictGet d k with
  | none => none
  | some v => some (v, d.eraseP (fun e => e.1 = k))

/-- Modelled from the spec: `search_pos` delegates to
`dqnroute.utils.binary_search`, which is not part of this repository
snapshot.  Per the spec (sections 4.1-4.2) it is a binary search over a
position-sorted list returning the entry nearest to `pos` together with
its index; on an exact distance tie we return the earlier entry, one of
the deterministic choices the spec allows.  `none` encodes the
`assert len(ls) > 0` failure. -/
def search_pos {ι : Type} : List (ι × ℚ) → ℚ → Option ((ι × ℚ) × ℕ)
  | [], _ => none
  | e :: rest, pos =>
    match search_pos rest pos with
    | none => some (e, 0)
    | some (b, i) =>
      if |e.2 - pos| ≤ |b.2 - pos| then some (e, 0) else some (b, i + 1)

/-- The state of a `ConveyorModel` instance: the constants fixed by
`__init__` and the mutable variables.  `checkpoint_positions` is the
dictionary `{cp: pos for (cp, pos) in checkpoints}`, recomputable from
`checkpoints`, so it is not stored separately. -/
structure ConveyorModel (α : Type) where
  model_id : AgentId
  checkpoints : List (CpId × ℚ)
  length : ℚ
  max_speed : ℚ
  _state : AutomState
  _resume_time : ℚ
  speed : ℚ
  objects : List (ℤ × α)
  object_positions : List (ℤ × ℚ)

namespace ConveyorModel

variable {α : Type}

/-- Method `ConveyorModel.__init__` after its asserts: sorted checkpoints,
`pristine` state, zero speed, no objects. -/
def init (length max_speed : ℚ) (checkpoints : List (CpId × ℚ))
    (model_id : AgentId) : ConveyorModel α :=
  { model_id := model_id
    checkpoints := checkpoints.mergeSort (fun a b => a.2 ≤ b.2)
    length := length
    max_speed := max_speed
    _state := .pristine
    _resume_time := 0
    speed := 0
    objects := []
    object_positions := [] }

/-- Dictionary `{cp: pos for (cp, pos) in checkpoints}`. -/
def checkpoint_positions (m : ConveyorModel α) : List (CpId × ℚ) :=
  m.checkpoints.foldl (fun d e => dictSet d e.1 e.2) []

/-- Method `ConveyorModel._stateTransfer`. -/
def _stateTransfer (m : ConveyorModel α) (action : AutomAction) :
    ConveyorModel α × Except (ModelError α) Unit :=
  match _model_automata m._state action with
  | some s => ({ m with _state := s }, .ok ())
  | none => (m, .error (.automata action m._state))

/-- Method `ConveyorModel.checkpointPos`. -/
def checkpointPos (m : ConveyorModel α) (cp : CpId) : Except (ModelError α) ℚ :=
  if cp.1 = strConvEnd then .ok m.length
  else
    match dictGet m.checkpoint_positions cp with
    | some p => .ok p
    | none => .error .keyError

/-- Method `ConveyorModel.working`. -/
def working (m : ConveyorModel α) : Bool := 0 < m.speed

/-- Method `ConveyorModel.setSpeed`.  The automaton fires before the speed is
assigned, so a protocol violation leaves the speed unchanged. -/
def setSpeed (m : ConveyorModel α) (speed : ℚ) :
    ConveyorModel α × Except (ModelError α) Unit :=
  if ¬ (0 ≤ speed ∧ speed ≤ m.max_speed) then
    (m, .error (.assertion msgSpeed))
  else if m.speed ≠ speed then
    match m._stateTransfer .change with
    | (m', .ok _) => ({ m' with speed := speed }, .ok ())
    | (m', .error e) => (m', .error e)
  else (m, .ok ())

/-- Insertion-index block of `putObject` (the `if len(self.objects) > 0`
branch computing `n_idx`), taking the already-rounded position: the index
at which to insert, or the raised collision / assertion / key error. -/
def putIndex (m : ConveyorModel α) (obj : α) (pos : ℚ) :
    Except (ModelError α) ℕ :=
  if 0 < m.objects.length then
    match search_pos m.object_positions pos with
    | none => .error (.assertion msgSearch)
    | some ((n_obj_id, n_pos), n_idx) =>
      if n_pos = pos then
        match dictGet m.objects n_obj_id with
        | some obj2 => .error (.collision obj obj2 pos m.model_id)
        | none => .error .keyError
      else if n_pos < pos then .ok (n_idx + 1)
      else .ok n_idx
  else .ok 0

/-- Method `ConveyorModel.putObject`.  The insert into `objects` and
`object_positions` happens before `_stateTransfer('change')`, so a
protocol violation leaves the insertion visible. -/
def putObject (m : ConveyorModel α) (obj_id : ℤ) (obj : α) (pos : ℚ) :
    ConveyorModel α × Except (ModelError α) Unit :=
  if dictContains m.objects obj_id then
    (m, .error (.assertion msgClash))
  else
    match m.putIndex obj (roundPos pos) with
    | .error e => (m, .error e)
    | .ok n_idx =>
      let m1 := { m with
        objects := dictSet m.objects obj_id obj
        object_positions :=
          m.object_positions.insertIdx n_idx (obj_id, roundPos pos) }
      m1._stateTransfer .change

/-- Method `ConveyorModel.removeObject`.  An absent id leaves `pos_idx = None`
and `list.pop(None)` raises `TypeError`; pops happen before
`_stateTransfer('change')`. -/
def removeObject (m : ConveyorModel α) (obj_id : ℤ) :
    ConveyorModel α × Except (ModelError α) α :=
  match m.object_positions.findIdx? (fun e => e.1 = obj_id) with
  | none => (m, .error .typeError)
  | some i =>
    let m1 := { m with object_positions := m.object_positions.eraseIdx i }
    match dictPop m1.objects obj_id with
    | none => (m1, .error .keyError)
    | some (obj, d') =>
      let m2 := { m1 with objects := d' }
      match m2._stateTransfer .change with
      | (m3, .ok _) => (m3, .ok obj)
      | (m3, .error e) => (m3, .error e)

/-- The `while self.object_positions[0][1] < 0` loop of `skipTime`:
pop the front entry and its object while the front position is negative.
On a `KeyError` the front entry has already been popped. -/
def cleanFront : List (ℤ × ℚ) → List (ℤ × α) →
    (List (ℤ × ℚ) × List (ℤ × α)) × Option (ModelError α)
  | [], objs => (([], objs), none)
  | (oid, p) :: rest, objs =>
    if p < 0 then
      match dictPop objs oid with
      | none => ((rest, objs), some .keyError)
      | some (_, objs') => cleanFront rest objs'
    else (((oid, p) :: rest, objs), none)

/-- The `while self.object_positions[-1][1] > self.length` loop of
`skipTime`, phrased on the reversed list: pop the entry and its object
while the position exceeds `len`. -/
def cleanBackRev (len : ℚ) : List (ℤ × ℚ) → List (ℤ × α) →
    (List (ℤ × ℚ) × List (ℤ × α)) × Option (ModelError α)
  | [], objs => (([], objs), none)
  | (oid, p) :: rest, objs =>
    if len < p then
      match dictPop objs oid with
      | none => ((rest, objs), some .keyError)
      | some (_, objs') => cleanBackRev len rest objs'
    else (((oid, p) :: rest, objs), none)

/-- The back-cleaning loop of `skipTime` on the list in its stored order. -/
def cleanBack (len : ℚ) (ps : List (ℤ × ℚ)) (objs : List (ℤ × α)) :
    (List (ℤ × ℚ) × List (ℤ × α)) × Option (ModelError α) :=
  match cleanBackRev len ps.reverse objs with
  | ((l, o), err) => ((l.reverse, o), err)

/-- Method `ConveyorModel.skipTime`.  Displacement and end-cleaning happen before
`_stateTransfer('change')`, so a protocol violation leaves them visible. -/
def skipTime (m : ConveyorModel α) (time : ℚ) (clean_ends : Bool := true) :
    ConveyorModel α × Except (ModelError α) ℚ :=
  if time = 0 then (m, .ok 0)
  else
    let d := time * m.speed
    let displaced := m.object_positions.map (fun e => (e.1, roundPos (e.2 + d)))
    if clean_ends then
      match cleanFront displaced m.objects with
      | ((l1, o1), some e) =>
        ({ m with object_positions := l1, objects := o1 }, .error e)
      | ((l1, o1), none) =>
        match cleanBack m.length l1 o1 with
        | ((l2, o2), some e) =>
          ({ m with object_positions := l2, objects := o2 }, .error e)
        | ((l2, o2), none) =>
          let m1 := { m with object_positions := l2, objects := o2 }
          match m1._stateTransfer .change with
          | (m2, .ok _) => (m2, .ok d)
          | (m2, .error e) => (m2, .error e)
    else
      let m1 := { m with object_positions := displaced }
      match m1._stateTransfer .change with
      | (m2, .ok _) => (m2, .ok d)
      | (m2, .error e) => (m2, .error e)

/-- Method `ConveyorModel.resume`. -/
def resume (m : ConveyorModel α) (time : ℚ) :
    ConveyorModel α × Except (ModelError α) Unit :=
  match m._stateTransfer .resume with
  | (m1, .ok _) => ({ m1 with _resume_time := time }, .ok ())
  | (m1, .error e) => (m1, .error e)

/-- Method `ConveyorModel.pause`.  The `pause` transition fires before the
`time_diff >= 0` assert, so a failed assert leaves the automaton moved. -/
def pause (m : ConveyorModel α) (time : ℚ) :
    ConveyorModel α × Except (ModelError α) Unit :=
  match m._stateTransfer .pause with
  | (m1, .error e) => (m1, .error e)
  | (m1, .ok _) =>
    let time_diff := time - m1._resume_time
    if time_diff < 0 then (m1, .error (.assertion msgPause))
    else
      match m1.skipTime time_diff with
      | (m2, .ok _) => (m2, .ok ())
      | (m2, .error e) => (m2, .error e)

/-- Method `ConveyorModel.startResolving`. -/
def startResolving (m : ConveyorModel α) :
    ConveyorModel α × Except (ModelError α) Unit :=
  m._stateTransfer .start_resolving

/-- Method `ConveyorModel.endResolving`. -/
def endResolving (m : ConveyorModel α) :
    ConveyorModel α × Except (ModelError α) Unit :=
  m._stateTransfer .end_resolving

/-- Method `ConveyorModel.dirty`. -/
def dirty (m : ConveyorModel α) : Bool := m._state = .dirty

/-- Method `ConveyorModel.resolving`. -/
def resolving (m : ConveyorModel α) : Bool := m._state = .resolving

end ConveyorModel

/-! ### Lemmas about position rounding -/

theorem posScale_pos : (0 : ℚ) < posScale := by norm_num [posScale]

theorem posScale_ne_zero : (posScale : ℚ) ≠ 0 := ne_of_gt posScale_pos

theorem roundPos_div_intCast (n : ℤ) :
    roundPos ((n : ℚ) / posScale) = (n : ℚ) / posScale := by
  unfold roundPos
  rw [div_mul_cancel₀ _ posScale_ne_zero, round_intCast]

/-- A value fixed by `roundPos` is an integer multiple of `10^-5`. -/
theorem exists_int_of_rounded {p : ℚ} (h : roundPos p = p) :
    ∃ n : ℤ, p = (n : ℚ) / posScale :=
  ⟨round (p * posScale), h.symm⟩

theorem roundPos_idem (x : ℚ) : roundPos (roundPos x) = roundPos x :=
  roundPos_div_intCast _

/-- Displacing two distinct already-rounded positions by the same amount and
re-rounding keeps them in strict order: their scaled difference is a nonzero
integer, which rounding preserves exactly. -/
theorem roundPos_add_strictMono {p q : ℚ} (d : ℚ)
    (hp : roundPos p = p) (hq : roundPos q = q) (h : p < q) :
    roundPos (p + d) < roundPos (q + d) := by
  obtain ⟨a, rfl⟩ := exists_int_of_rounded hp
  obtain ⟨b, rfl⟩ := exists_int_of_rounded hq
  have hab : a < b := by
    have := (div_lt_div_iff_of_pos_right posScale_pos).mp h
    exact_mod_cast this
  have ha : ((a : ℚ) / posScale + d) * posScale = d * posScale + (a : ℚ) := by
    rw [add_mul, div_mul_cancel₀ _ posScale_ne_zero]; ring
  have hb : ((b : ℚ) / posScale + d) * posScale = d * posScale + (b : ℚ) := by
    rw [add_mul, div_mul_cancel₀ _ posScale_ne_zero]; ring
  unfold roundPos
  rw [ha, hb, round_add_int, round_add_int]
  apply (div_lt_div_iff_of_pos_right posScale_pos).mpr
  exact_mod_cast add_lt_add_left hab _

/-! ### Lemmas about `search_pos` -/

theorem search_pos_eq_none_iff {ι : Type} (l : List (ι × ℚ)) (pos : ℚ) :
    search_pos l pos = none ↔ l = [] := by
  cases l with
  | nil => simp [search_pos]
  | cons e rest =>
    cases h : search_pos rest pos with
    | none => simp [search_pos, h]
    | some b =>
      obtain ⟨b', i⟩ := b
      by_cases hle : |e.2 - pos| ≤ |b'.2 - pos| <;> simp [search_pos, h, hle]

/-- The index returned by `search_pos` points at the returned entry. -/
theorem search_pos_get {ι : Type} :
    ∀ (l : List (ι × ℚ)) (pos : ℚ) (b : ι × ℚ) (i : ℕ),
      search_pos l pos = some (b, i) →
      ∃ hi : i < l.length, l.get ⟨i, hi⟩ = b
  | [], _, _, _, h => by simp [search_pos] at h
  | e :: rest, pos, b, i, h => by
    cases hrec : search_pos rest pos with
    | none =>
      simp only [search_pos, hrec, Option.some.injEq, Prod.mk.injEq] at h
      obtain ⟨rfl, rfl⟩ := h
      exact ⟨by simp, rfl⟩
    | some bi =>
      obtain ⟨b', j⟩ := bi
      by_cases hle : |e.2 - pos| ≤ |b'.2 - pos|
      · simp only [search_pos, hrec, if_pos hle, Option.some.injEq,
          Prod.mk.injEq] at h
        obtain ⟨rfl, rfl⟩ := h
        exact ⟨by simp, rfl⟩
      · simp only [search_pos, hrec, if_neg hle, Option.some.injEq,
          Prod.mk.injEq] at h
        obtain ⟨rfl, rfl⟩ := h
        obtain ⟨hj, hget⟩ := search_pos_get rest pos _ j hrec
        exact ⟨by simpa using hj, by simpa using hget⟩

/-- The entry returned by `search_pos` is a member of the list. -/
theorem search_pos_mem {ι : Type} (l : List (ι × ℚ)) (pos : ℚ) (b : ι × ℚ)
    (i : ℕ) (h : search_pos l pos = some (b, i)) : b ∈ l := by
  obtain ⟨hi, hget⟩ := search_pos_get l pos b i h
  exact hget ▸ List.get_mem l i hi

/-- The entry returned by `search_pos` minimizes the distance to `pos`. -/
theorem search_pos_min {ι : Type} :
    ∀ (l : List (ι × ℚ)) (pos : ℚ) (b : ι × ℚ) (i : ℕ),
      search_pos l pos = some (b, i) →
      ∀ e ∈ l, |b.2 - pos| ≤ |e.2 - pos|
  | [], _, _, _, h => by simp [search_pos] at h
  | e :: rest, pos, b, i, h => by
    cases hrec : search_pos rest pos with
    | none =>
      simp only [search_pos, hrec, Option.some.injEq, Prod.mk.injEq] at h
      obtain ⟨rfl, rfl⟩ := h
      have hrest : rest = [] := (search_pos_eq_none_iff rest pos).mp hrec
      subst hrest
      intro x hx
      rw [List.mem_singleton] at hx
      subst hx; exact le_refl _
    | some bi =>
      obtain ⟨b', j⟩ := bi
      have hmin := search_pos_min rest pos b' j hrec
      by_cases hle : |e.2 - pos| ≤ |b'.2 - pos|
      · simp only [search_pos, hrec, if_pos hle, Option.some.injEq,
          Prod.mk.injEq] at h
        obtain ⟨rfl, rfl⟩ := h
        intro x hx
        rcases List.mem_cons.mp hx with rfl | hx
        · exact le_refl _
        · exact le_trans hle (hmin x hx)
      · simp only [search_pos, hrec, if_neg hle, Option.some.injEq,
          Prod.mk.injEq] at h
        obtain ⟨rfl, rfl⟩ := h
        intro x hx
        rcases List.mem_cons.mp hx with rfl | hx
        · exact le_of_lt (lt_of_not_le hle)
        · exact hmin x hx

/-! ### Lemmas about the dictionary model -/

theorem dictGet_isSome_iff {κ β : Type} [DecidableEq κ] (d : List (κ × β))
    (k : κ) : (dictGet d k).isSome = true ↔ dictContains d k = true := by
  induction d with
  | nil => simp [dictGet, dictContains]
  | cons e rest ih =>
    by_cases he : e.1 = k
    · simp [dictGet, dictContains, he]
    · simp only [dictGet, dictContains, if_neg he, List.any_cons]
      rw [dictContains] at ih
      simp [he, ih]

theorem dictGet_eq_none_of_not_contains {κ β : Type} [DecidableEq κ]
    {d : List (κ × β)} {k : κ} (h : ¬ dictContains d k = true) :
    dictGet d k = none := by
  cases hg : dictGet d k with
  | none => rfl
  | some v =>
    exact absurd ((dictGet_isSome_iff d k).mp (by simp [hg])) h

theorem dictSet_fresh {κ β : Type} [DecidableEq κ] {d : List (κ × β)} {k : κ}
    (h : ¬ dictContains d k = true) (v : β) : dictSet d k v = d ++ [(k, v)] := by
  simp [dictSet, h]

/-- Keys after a successful `dictPop`: the popped key disappears, all other
keys survive, and distinctness of keys is preserved. -/
theorem dictPop_keys {κ β : Type} [DecidableEq κ] :
    ∀ {d : List (κ × β)} {k : κ} {v : β} {d' : List (κ × β)},
      (d.map Prod.fst).Nodup → dictPop d k = some (v, d') →
      (d'.map Prod.fst).Nodup ∧
        ∀ j : κ, j ∈ d'.map Prod.fst ↔ j ∈ d.map Prod.fst ∧ j ≠ k
  | [], k, v, d', _, h => by simp [dictPop, dictGet] at h
  | e :: rest, k, v, d', hnd, h => by
    by_cases he : e.1 = k
    · have herase : (e :: rest).eraseP (fun x => decide (x.1 = k)) = rest := by
        simp [List.eraseP_cons, he]
      simp only [dictPop, dictGet, if_pos he, Option.some.injEq,
        Prod.mk.injEq] at h
      obtain ⟨rfl, hd'⟩ := h
      rw [herase] at hd'
      subst hd'
      rw [List.map_cons, List.nodup_cons] at hnd
      refine ⟨hnd.2, fun j => ⟨fun hj => ⟨List.mem_cons_of_mem _ hj, ?_⟩, ?_⟩⟩
      · intro hjk
        exact hnd.1 ((he ▸ hjk) ▸ hj)
      · rintro ⟨hj, hjk⟩
        rcases List.mem_cons.mp hj with rfl | hj
        · exact absurd he.symm (Ne.symm hjk)
        · exact hj
    · cases hg : dictGet rest k with
      | none =>
        simp [dictPop, dictGet, if_neg he, hg] at h
      | some w =>
        have hrec : dictPop rest k =
            some (w, rest.eraseP (fun x => decide (x.1 = k))) := by
          simp [dictPop, hg]
        rw [List.map_cons, List.nodup_cons] at hnd
        obtain ⟨ih1, ih2⟩ := dictPop_keys hnd.2 hrec
        simp only [dictPop, dictGet, if_neg he, hg, Option.some.injEq,
          Prod.mk.injEq] at h
        obtain ⟨rfl, hd'⟩ := h
        simp only [List.eraseP_cons, he, decide_False, cond_false] at hd'
        subst hd'
        constructor
        · rw [List.map_cons, List.nodup_cons]
          refine ⟨fun hmem => ?_, ih1⟩
          exact hnd.1 (((ih2 e.1).mp hmem).1)
        · intro j
          rw [List.map_cons, List.mem_cons, ih2, List.map_cons, List.mem_cons]
          constructor
          · rintro (rfl | ⟨hj, hjk⟩)
            · exact ⟨Or.inl rfl, he⟩
            · exact ⟨Or.inr hj, hjk⟩
          · rintro ⟨rfl | hj, hjk⟩
            · exact Or.inl rfl
            · exact Or.inr ⟨hj, hjk⟩

/-- A contained key can always be popped. -/
theorem dictPop_of_contains {κ β : Type} [DecidableEq κ] {d : List (κ × β)}
    {k : κ} (h : dictContains d k = true) :
    ∃ v, dictPop d k = some (v, d.eraseP (fun e => decide (e.1 = k))) := by
  obtain ⟨v, hv⟩ :=
    Option.isSome_iff_exists.mp ((dictGet_isSome_iff d k).mpr h)
  exact ⟨v, by simp [dictPop, hv]⟩

theorem dictPop_append_fresh {κ β : Type} [DecidableEq κ] {d : List (κ × β)}
    {k : κ} (h : ¬ dictContains d k = true) (v : β) :
    dictPop (d ++ [(k, v)]) k = some (v, d) := by
  induction d with
  | nil => simp [dictPop, dictGet, List.eraseP]
  | cons e rest ih =>
    have he : ¬ e.1 = k := by
      intro hek
      exact h (by simp [dictContains, hek])
    have hrest : ¬ dictContains rest k = true := by
      intro hc
      apply h
      simp only [dictContains, List.any_cons] at hc ⊢
      simp [hc]
    have := ih hrest
    simp only [dictPop, dictGet, List.cons_append, if_neg he] at this ⊢
    cases hg : dictGet (rest ++ [(k, v)]) k with
    | none => rw [hg] at this; exact absurd this (by simp)
    | some w =>
      rw [hg] at this
      simp only [Option.some.injEq, Prod.mk.injEq] at this
      obtain ⟨rfl, herase⟩ := this
      simp [List.eraseP_cons, he, herase]

/-! ### Pairwise helpers -/

/-- Inserting an element that is above everything before the index and below
everything after it preserves pairwise ordering. -/
theorem pairwise_insertIdx_of {β : Type} {R : β → β → Prop} :
    ∀ (n : ℕ) (l : List β) (x : β), n ≤ l.length → l.Pairwise R →
      (∀ e ∈ l.take n, R e x) → (∀ e ∈ l.drop n, R x e) →
      (l.insertIdx n x).Pairwise R
  | 0, l, x, _, hl, _, hdrop => by
    rw [List.insertIdx_zero]
    exact List.Pairwise.cons (by simpa using hdrop) hl
  | n + 1, [], x, hn, _, _, _ => by simp at hn
  | n + 1, a :: t, x, hn, hl, htake, hdrop => by
    rw [List.insertIdx_succ_cons]
    rw [List.pairwise_cons] at hl
    have hn' : n ≤ t.length := Nat.le_of_succ_le_succ hn
    refine List.Pairwise.cons ?_
      (pairwise_insertIdx_of n t x hn' hl.2
        (fun e he => htake e (by simpa using Or.inr he))
        (fun e he => hdrop e (by simpa using he)))
    intro e he
    rcases (List.mem_insertIdx hn').mp he with rfl | he
    · exact htake a (by simp)
    · exact hl.1 e he

/-- In a pairwise-ordered list every element before index `i` is related to
the element at `i`. -/
theorem pairwise_take_get {β : Type} {R : β → β → Prop} :
    ∀ (l : List β), l.Pairwise R → ∀ (i : ℕ) (hi : i < l.length),
      ∀ e ∈ l.take i, R e (l.get ⟨i, hi⟩)
  | [], _, i, hi => by simp at hi
  | a :: t, hl, 0, hi => by simp
  | a :: t, hl, i + 1, hi => by
    rw [List.pairwise_cons] at hl
    intro e he
    rw [List.take_succ_cons, List.mem_cons] at he
    rcases he with rfl | he
    · exact hl.1 _ (List.get_mem t i (Nat.lt_of_succ_lt_succ hi))
    · exact pairwise_take_get t hl.2 i (Nat.lt_of_succ_lt_succ hi) e he

/-- In a pairwise-ordered list the element at index `i` is related to every
element after it. -/
theorem pairwise_drop_get {β : Type} {R : β → β → Prop} :
    ∀ (l : List β), l.Pairwise R → ∀ (i : ℕ) (hi : i < l.length),
      ∀ e ∈ l.drop (i + 1), R (l.get ⟨i, hi⟩) e
  | [], _, i, hi => by simp at hi
  | a :: t, hl, 0, hi => by
    rw [List.pairwise_cons] at hl
    intro e he
    exact hl.1 e (by simpa using he)
  | a :: t, hl, i + 1, hi => by
    rw [List.pairwise_cons] at hl
    intro e he
    exact pairwise_drop_get t hl.2 i (Nat.lt_of_succ_lt_succ hi) e
      (by simpa using he)

/-- In a strictly position-sorted list, an entry is determined by its
position. -/
theorem pairwise_snd_inj {ι : Type} :
    ∀ (l : List (ι × ℚ)), l.Pairwise (fun a b => a.2 < b.2) →
      ∀ a ∈ l, ∀ b ∈ l, a.2 = b.2 → a = b
  | [], _, a, ha, _, _, _ => by simp at ha
  | x :: t, hl, a, ha, b, hb, hab => by
    rw [List.pairwise_cons] at hl
    rcases List.mem_cons.mp ha with rfl | ha' <;>
      rcases List.mem_cons.mp hb with rfl | hb'
    · rfl
    · exact absurd (hab ▸ hl.1 b hb') (lt_irrefl _)
    · exact absurd (hab ▸ hl.1 a ha') (lt_irrefl _)
    · exact pairwise_snd_inj t hl.2 a ha' b hb' hab

/-! ### The clean-ends loops -/

namespace ConveyorModel

variable {α : Type}

/-- Specification of the front-cleaning loop on well-formed inputs: it
drops exactly the leading negative-position entries, succeeds, and pops
exactly the dropped ids from the object dictionary. -/
theorem cleanFront_spec :
    ∀ (l : List (ℤ × ℚ)) (objs : List (ℤ × α)),
      (l.map Prod.fst).Nodup → (objs.map Prod.fst).Nodup →
      (∀ i : ℤ, i ∈ l.map Prod.fst → i ∈ objs.map Prod.fst) →
      ∃ o', cleanFront l objs =
          ((l.dropWhile (fun e => decide (e.2 < 0)), o'), none) ∧
        (o'.map Prod.fst).Nodup ∧
        ∀ j : ℤ, j ∈ o'.map Prod.fst ↔
          j ∈ objs.map Prod.fst ∧
            j ∉ (l.takeWhile (fun e => decide (e.2 < 0))).map Prod.fst
  | [], objs, _, hobjs, _ => by
    exact ⟨objs, by simp [cleanFront], hobjs, by simp⟩
  | (oid, p) :: rest, objs, hl, hobjs, hsub => by
    by_cases hp : p < 0
    · have hcont : dictContains objs oid = true := by
        have : oid ∈ objs.map Prod.fst := hsub oid (by simp)
        simp only [dictContains, List.any_eq_true]
        obtain ⟨e, he, heq⟩ := List.mem_map.mp this
        exact ⟨e, he, by simp [heq]⟩
      obtain ⟨v, hvpop⟩ := dictPop_of_contains hcont
      obtain ⟨hnd1, hkeys1⟩ := dictPop_keys hobjs hvpop
      rw [List.map_cons, List.nodup_cons] at hl
      have hsub1 : ∀ i : ℤ, i ∈ rest.map Prod.fst →
          i ∈ (objs.eraseP (fun e => decide (e.1 = oid))).map Prod.fst := by
        intro i hi
        refine (hkeys1 i).mpr ⟨hsub i (by simp [hi]), ?_⟩
        intro hio
        exact hl.1 (hio ▸ hi)
      obtain ⟨o', ho', hnd', hkeys'⟩ :=
        cleanFront_spec rest _ hl.2 hnd1 hsub1
      refine ⟨o', ?_, hnd', ?_⟩
      · rw [List.dropWhile_cons]
        simp only [hp, decide_True, if_true]
        simpa [cleanFront, hp, hvpop] using ho'
      · intro j
        rw [hkeys' j, hkeys1 j]
        rw [List.takeWhile_cons]
        simp only [hp, decide_True, if_true, List.map_cons, List.mem_cons]
        constructor
        · rintro ⟨⟨hjo, hjoid⟩, hjtw⟩
          exact ⟨hjo, by simp [hjoid, hjtw]⟩
        · rintro ⟨hjo, hjn⟩
          push_neg at hjn
          exact ⟨⟨hjo, hjn.1⟩, hjn.2⟩
    · exact ⟨objs, by simp [cleanFront, hp], hobjs, by
        intro j
        rw [List.takeWhile_cons]
        simp [hp]⟩

/-- Specification of the back-cleaning loop (phrased on the reversed list):
it drops exactly the leading over-length entries, succeeds, and pops exactly
the dropped ids from the object dictionary. -/
theorem cleanBackRev_spec (len : ℚ) :
    ∀ (l : List (ℤ × ℚ)) (objs : List (ℤ × α)),
      (l.map Prod.fst).Nodup → (objs.map Prod.fst).Nodup →
      (∀ i : ℤ, i ∈ l.map Prod.fst → i ∈ objs.map Prod.fst) →
      ∃ o', cleanBackRev len l objs =
          ((l.dropWhile (fun e => decide (len < e.2)), o'), none) ∧
        (o'.map Prod.fst).Nodup ∧
        ∀ j : ℤ, j ∈ o'.map Prod.fst ↔
          j ∈ objs.map Prod.fst ∧
            j ∉ (l.takeWhile (fun e => decide (len < e.2))).map Prod.fst
  | [], objs, _, hobjs, _ => by
    exact ⟨objs, by simp [cleanBackRev], hobjs, by simp⟩
  | (oid, p) :: rest, objs, hl, hobjs, hsub => by
    by_cases hp : len < p
    · have hcont : dictContains objs oid = true := by
        have : oid ∈ objs.map Prod.fst := hsub oid (by simp)
        simp only [dictContains, List.any_eq_true]
        obtain ⟨e, he, heq⟩ := List.mem_map.mp this
        exact ⟨e, he, by simp [heq]⟩
      obtain ⟨v, hvpop⟩ := dictPop_of_contains hcont
      obtain ⟨hnd1, hkeys1⟩ := dictPop_keys hobjs hvpop
      rw [List.map_cons, List.nodup_cons] at hl
      have hsub1 : ∀ i : ℤ, i ∈ rest.map Prod.fst →
          i ∈ (objs.eraseP (fun e => decide (e.1 = oid))).map Prod.fst := by
        intro i hi
        refine (hkeys1 i).mpr ⟨hsub i (by simp [hi]), ?_⟩
        intro hio
        exact hl.1 (hio ▸ hi)
      obtain ⟨o', ho', hnd', hkeys'⟩ :=
        cleanBackRev_spec len rest _ hl.2 hnd1 hsub1
      refine ⟨o', ?_, hnd', ?_⟩
      · rw [List.dropWhile_cons]
        simp only [hp, decide_True, if_true]
        simpa [cleanBackRev, hp, hvpop] using ho'
      · intro j
        rw [hkeys' j, hkeys1 j]
        rw [List.takeWhile_cons]
        simp only [hp, decide_True, if_true, List.map_cons, List.mem_cons]
        constructor
        · rintro ⟨⟨hjo, hjoid⟩, hjtw⟩
          exact ⟨hjo, by simp [hjoid, hjtw]⟩
        · rintro ⟨hjo, hjn⟩
          push_neg at hjn
          exact ⟨⟨hjo, hjn.1⟩, hjn.2⟩
    · exact ⟨objs, by simp [cleanBackRev, hp], hobjs, by
        intro j
        rw [List.takeWhile_cons]
        simp [hp]⟩

end ConveyorModel

/-- Dropping a leading segment equals filtering when the tested property is
downward closed along a pairwise-ordered list. -/
theorem dropWhile_eq_filter_of_pairwise {β : Type} {R : β → β → Prop}
    (p : β → Bool) (hdown : ∀ a b : β, R a b → p b = true → p a = true) :
    ∀ (l : List β), l.Pairwise R → l.dropWhile p = l.filter (fun e => ! p e)
  | [], _ => rfl
  | a :: t, hl => by
    rw [List.pairwise_cons] at hl
    by_cases hp : p a = true
    · rw [List.dropWhile_cons_of_pos hp, List.filter_cons_of_neg (by simp [hp])]
      exact dropWhile_eq_filter_of_pairwise p hdown t hl.2
    · rw [List.dropWhile_cons_of_neg hp, List.filter_cons_of_pos (by simp [hp])]
      congr 1
      symm
      rw [List.filter_eq_self]
      intro e he
      cases hpe : p e
      · simp
      · exact absurd (hdown a e (hl.1 e he) hpe) hp

/-- Pairwise relations can be weakened using membership. -/
theorem pairwise_imp_of_mem {β : Type} {R S : β → β → Prop} {l : List β}
    (himp : ∀ a ∈ l, ∀ b ∈ l, R a b → S a b) (h : l.Pairwise R) :
    l.Pairwise S := by
  have h2 := List.Pairwise.and_mem.mp h
  exact h2.imp (fun hab => himp _ hab.1 _ hab.2.1 hab.2.2)

/-- Dictionary membership agrees with key-list membership. -/
theorem dictContains_iff {κ β : Type} [DecidableEq κ] (d : List (κ × β))
    (k : κ) : dictContains d k = true ↔ k ∈ d.map Prod.fst := by
  simp only [dictContains, List.any_eq_true, List.mem_map, decide_eq_true_eq]

/-- Mapping commutes with index removal. -/
theorem map_eraseIdx' {β γ : Type} (f : β → γ) (l : List β) (i : ℕ) :
    (l.eraseIdx i).map f = (l.map f).eraseIdx i := by
  rw [List.eraseIdx_eq_take_drop_succ, List.eraseIdx_eq_take_drop_succ,
    List.map_append, List.map_take, List.map_drop]

/-- Membership in a duplicate-free list after removing the entry at `i`. -/
theorem nodup_mem_eraseIdx {γ : Type} (lm : List γ) (i : ℕ)
    (hi : i < lm.length) (hnd : lm.Nodup) (j : γ) :
    j ∈ lm.eraseIdx i ↔ j ∈ lm ∧ j ≠ lm.get ⟨i, hi⟩ := by
  set x := lm.get ⟨i, hi⟩ with hx
  have hdecomp : lm = lm.take i ++ x :: lm.drop (i + 1) := by
    conv_lhs => rw [← List.take_append_drop i lm]
    rw [List.drop_eq_getElem_cons hi]
    rfl
  rw [List.eraseIdx_eq_take_drop_succ]
  rw [hdecomp] at hnd
  rw [List.nodup_append] at hnd
  obtain ⟨-, hnd2, hdisj⟩ := hnd
  rw [List.nodup_cons] at hnd2
  have hx_take : x ∉ lm.take i := fun hmem =>
    hdisj hmem (List.mem_cons_self _ _)
  rw [List.mem_append]
  constructor
  · rintro (hj | hj)
    · exact ⟨List.take_subset _ _ hj, fun hje => hx_take (hje ▸ hj)⟩
    · exact ⟨List.drop_subset _ _ hj, fun hje => hnd2.1 (hje ▸ hj)⟩
  · rintro ⟨hjl, hne⟩
    rw [hdecomp, List.mem_append, List.mem_cons] at hjl
    rcases hjl with hj | hj | hj
    · exact Or.inl hj
    · exact absurd hj hne
    · exact Or.inr hj

namespace ConveyorModel

variable {α : Type}

/-- Front-cleaning is the identity when no position is negative. -/
theorem cleanFront_no_drop (l : List (ℤ × ℚ)) (objs : List (ℤ × α))
    (h : ∀ e ∈ l, ¬ e.2 < 0) : cleanFront l objs = ((l, objs), none) := by
  cases l with
  | nil => rfl
  | cons e rest => simp [cleanFront, h e (by simp)]

/-- Back-cleaning is the identity when no position exceeds the length. -/
theorem cleanBackRev_no_drop (len : ℚ) (l : List (ℤ × ℚ))
    (objs : List (ℤ × α)) (h : ∀ e ∈ l, ¬ len < e.2) :
    cleanBackRev len l objs = ((l, objs), none) := by
  cases l with
  | nil => rfl
  | cons e rest => simp [cleanBackRev, h e (by simp)]

/-- Well-formedness invariants of a model state (spec section 3): the
position store is strictly sorted by position, every stored position is
already rounded, ids are unique on both sides, and the position store and
the object dictionary hold exactly the same ids. -/
def WF (m : ConveyorModel α) : Prop :=
  m.object_positions.Pairwise (fun a b => a.2 < b.2) ∧
  (∀ e ∈ m.object_positions, roundPos e.2 = e.2) ∧
  (m.object_positions.map Prod.fst).Nodup ∧
  (m.objects.map Prod.fst).Nodup ∧
  (∀ i : ℤ, i ∈ m.object_positions.map Prod.fst ↔ i ∈ m.objects.map Prod.fst)

/-- Well-formedness only looks at the two object stores. -/
theorem WF_of_store_eq {m m' : ConveyorModel α}
    (h1 : m'.object_positions = m.object_positions)
    (h2 : m'.objects = m.objects) (h : WF m) : WF m' := by
  rw [WF, h1, h2]; exact h

/-- Shape of a successful `putObject`: the id was fresh, an insertion index
was computed, the `change` transition was legal, and the result appends the
payload and inserts the rounded position at the computed index. -/
theorem putObject_ok {m : ConveyorModel α} {obj_id : ℤ} {obj : α} {pos : ℚ}
    (h : (m.putObject obj_id obj pos).2 = .ok ()) :
    dictContains m.objects obj_id = false ∧
    ∃ (n_idx : ℕ) (s : AutomState),
      m.putIndex obj (roundPos pos) = .ok n_idx ∧
      _model_automata m._state .change = some s ∧
      (m.putObject obj_id obj pos).1 =
        { m with
          objects := m.objects ++ [(obj_id, obj)]
          object_positions :=
            m.object_positions.insertIdx n_idx (obj_id, roundPos pos)
          _state := s } := by
  by_cases hc : dictContains m.objects obj_id
  · simp [putObject, hc] at h
  · refine ⟨by simpa using hc, ?_⟩
    cases hidx : m.putIndex obj (roundPos pos) with
    | error e => simp [putObject, hc, hidx] at h
    | ok n_idx =>
      cases hs : _model_automata m._state .change with
      | none => simp [putObject, hc, hidx, _stateTransfer, hs] at h
      | some s =>
        refine ⟨n_idx, s, rfl, rfl, ?_⟩
        simp [putObject, hc, hidx, _stateTransfer, hs, dictSet_fresh hc]

/-- A successful `putIndex` splits the sorted store at the rounded position:
everything before the index is strictly below it, everything after strictly
above. -/
theorem putIndex_ok_spec {m : ConveyorModel α} {obj : α} {pos : ℚ} {n : ℕ}
    (hsor : m.object_positions.Pairwise (fun a b => a.2 < b.2))
    (hne : m.objects.length = 0 → m.object_positions = [])
    (h : m.putIndex obj pos = .ok n) :
    n ≤ m.object_positions.length ∧
    (∀ e ∈ m.object_positions.take n, e.2 < pos) ∧
    (∀ e ∈ m.object_positions.drop n, pos < e.2) := by
  by_cases hlen : 0 < m.objects.length
  · cases hsp : search_pos m.object_positions pos with
    | none => simp [putIndex, hlen, hsp] at h
    | some bi =>
      obtain ⟨⟨n_obj_id, n_pos⟩, ni⟩ := bi
      obtain ⟨hni, hget⟩ := search_pos_get _ _ _ _ hsp
      have hmin := search_pos_min _ _ _ _ hsp
      by_cases heq : n_pos = pos
      · cases hg : dictGet m.objects n_obj_id with
        | none => simp [putIndex, hlen, hsp, heq, hg] at h
        | some v => simp [putIndex, hlen, hsp, heq, hg] at h
      · by_cases hlt : n_pos < pos
        · have hn : ni + 1 = n := by
            simpa [putIndex, hlen, hsp, heq, hlt] using h
          subst hn
          refine ⟨by omega, ?_, ?_⟩
          · intro e he
            rw [List.take_succ, List.getElem?_eq_getElem hni] at he
            rcases List.mem_append.mp he with he | he
            · have := pairwise_take_get _ hsor ni hni e he
              rw [hget] at this
              exact lt_trans this hlt
            · have he' : e = (n_obj_id, n_pos) := by
                rw [← hget]
                simpa using he
              rw [he']
              exact hlt
          · intro e he
            have h1 := pairwise_drop_get _ hsor ni hni e he
            rw [hget] at h1
            by_contra hle
            push_neg at hle
            have hmine := hmin e (List.drop_subset _ _ he)
            rw [abs_of_neg (by linarith : n_pos - pos < 0),
              abs_of_nonpos (by linarith : e.2 - pos ≤ 0)] at hmine
            have : e.2 ≤ n_pos := by linarith
            linarith
        · have hgt : pos < n_pos :=
            lt_of_le_of_ne (not_lt.mp hlt) (fun hh => heq hh.symm)
          have hn : ni = n := by
            simpa [putIndex, hlen, hsp, heq, hlt] using h
          subst hn
          refine ⟨le_of_lt hni, ?_, ?_⟩
          · intro e he
            have h1 := pairwise_take_get _ hsor ni hni e he
            rw [hget] at h1
            by_contra hle
            push_neg at hle
            have hmine := hmin e (List.take_subset _ _ he)
            rw [abs_of_pos (by linarith : 0 < n_pos - pos),
              abs_of_nonneg (by linarith : 0 ≤ e.2 - pos)] at hmine
            linarith
          · intro e he
            rw [List.drop_eq_getElem_cons hni] at he
            rcases List.mem_cons.mp he with rfl | he
            · have hg2 : m.object_positions[ni] = (n_obj_id, n_pos) := by
                rw [← hget]; rfl
              rw [hg2]
              exact hgt
            · have h1 := pairwise_drop_get _ hsor ni hni e he
              rw [hget] at h1
              exact lt_trans hgt h1
  · have hnil := hne (by omega)
    have hn : 0 = n := by simpa [putIndex, hlen] using h
    subst hn
    simp [hnil]

/-- With an entry stored at exactly the (already rounded) target position,
`putIndex` raises the collision error carrying the incoming payload, the
resident payload, the position, and the model identity. -/
theorem putIndex_collision {m : ConveyorModel α} {obj obj2 : α} {oid : ℤ}
    {pos : ℚ}
    (hsor : m.object_positions.Pairwise (fun a b => a.2 < b.2))
    (hmem : (oid, pos) ∈ m.object_positions)
    (hg : dictGet m.objects oid = some obj2)
    (hlen : 0 < m.objects.length) :
    m.putIndex obj pos = .error (.collision obj obj2 pos m.model_id) := by
  cases hsp : search_pos m.object_positions pos with
  | none =>
    rw [search_pos_eq_none_iff] at hsp
    rw [hsp] at hmem
    simp at hmem
  | some bi =>
    obtain ⟨⟨nid, np⟩, ni⟩ := bi
    have hb_mem := search_pos_mem _ _ _ _ hsp
    have hmin := search_pos_min _ _ _ _ hsp (oid, pos) hmem
    have hnp : np = pos := by
      have h0 : |np - pos| ≤ 0 := by simpa using hmin
      have h1 : np - pos = 0 := abs_eq_zero.mp (le_antisymm h0 (abs_nonneg _))
      linarith
    have hent : (nid, np) = (oid, pos) :=
      pairwise_snd_inj _ hsor (nid, np) hb_mem (oid, pos) hmem (by simpa using hnp)
    have hnid : nid = oid := (Prod.mk.injEq _ _ _ _ ▸ hent).1
    subst hnid
    simp [putIndex, hlen, hsp, hnp, hg]

/-- A successful `putIndex` answers an index within bounds, with no
sortedness assumption. -/
theorem putIndex_ok_le {m : ConveyorModel α} {obj : α} {pos : ℚ} {n : ℕ}
    (h : m.putIndex obj pos = .ok n) : n ≤ m.object_positions.length := by
  by_cases hlen : 0 < m.objects.length
  · cases hsp : search_pos m.object_positions pos with
    | none => simp [putIndex, hlen, hsp] at h
    | some bi =>
      obtain ⟨⟨nid, np⟩, ni⟩ := bi
      obtain ⟨hni, -⟩ := search_pos_get _ _ _ _ hsp
      by_cases heq : np = pos
      · cases hg : dictGet m.objects nid with
        | none => simp [putIndex, hlen, hsp, heq, hg] at h
        | some v => simp [putIndex, hlen, hsp, heq, hg] at h
      · by_cases hlt : np < pos
        · have hn : ni + 1 = n := by
            simpa [putIndex, hlen, hsp, heq, hlt] using h
          omega
        · have hn : ni = n := by
            simpa [putIndex, hlen, hsp, heq, hlt] using h
          omega
  · have hn : 0 = n := by simpa [putIndex, hlen] using h
    omega

/-- Shape of a successful `removeObject`: the id was found in the position
store and the dictionary, the `change` transition was legal, and the result
erases the entry at the found index and the dictionary key. -/
theorem removeObject_ok {m : ConveyorModel α} {obj_id : ℤ} {v : α}
    (h : (m.removeObject obj_id).2 = .ok v) :
    ∃ (i : ℕ) (s : AutomState),
      m.object_positions.findIdx? (fun e => e.1 = obj_id) = some i ∧
      dictGet m.objects obj_id = some v ∧
      _model_automata m._state .change = some s ∧
      (m.removeObject obj_id).1 =
        { m with
          object_positions := m.object_positions.eraseIdx i
          objects := m.objects.eraseP (fun e => decide (e.1 = obj_id))
          _state := s } := by
  cases hf : m.object_positions.findIdx? (fun e => e.1 = obj_id) with
  | none => simp [removeObject, hf] at h
  | some i =>
    cases hg : dictGet m.objects obj_id with
    | none => simp [removeObject, hf, dictPop, hg] at h
    | some w =>
      cases hs : _model_automata m._state .change with
      | none => simp [removeObject, hf, dictPop, hg, _stateTransfer, hs] at h
      | some s =>
        have hv : w = v := by
          simpa [removeObject, hf, dictPop, hg, _stateTransfer, hs] using h
        subst hv
        exact ⟨i, s, rfl, rfl, rfl,
          by simp [removeObject, hf, dictPop, hg, _stateTransfer, hs]⟩

/-- State transfer never touches the object stores. -/
theorem _stateTransfer_store (m : ConveyorModel α) (a : AutomAction) :
    (m._stateTransfer a).1.object_positions = m.object_positions ∧
    (m._stateTransfer a).1.objects = m.objects := by
  cases h : _model_automata m._state a <;> simp [_stateTransfer, h]

/-- Speed changes never touch the object stores. -/
theorem setSpeed_store (m : ConveyorModel α) (v : ℚ) :
    (m.setSpeed v).1.object_positions = m.object_positions ∧
    (m.setSpeed v).1.objects = m.objects := by
  by_cases h1 : 0 ≤ v ∧ v ≤ m.max_speed
  · by_cases h2 : m.speed ≠ v
    · cases hs : _model_automata m._state .change <;>
        simp [setSpeed, h1, h2, _stateTransfer, hs]
    · simp [setSpeed, h1, h2]
  · simp [setSpeed, h1]

/-- Resuming never touches the object stores. -/
theorem resume_store (m : ConveyorModel α) (t : ℚ) :
    (m.resume t).1.object_positions = m.object_positions ∧
    (m.resume t).1.objects = m.objects := by
  cases hs : _model_automata m._state .resume <;>
    simp [resume, _stateTransfer, hs]

/-- A successful `putObject` preserves well-formedness. -/
theorem putObject_WF {m : ConveyorModel α} {obj_id : ℤ} {obj : α} {pos : ℚ}
    (hWF : WF m) (h : (m.putObject obj_id obj pos).2 = .ok ()) :
    WF (m.putObject obj_id obj pos).1 := by
  obtain ⟨hsor, hrnd, hndp, hndo, hiff⟩ := hWF
  obtain ⟨hc, n_idx, s, hidx, hs, heq⟩ := putObject_ok h
  have hfresh_keys : obj_id ∉ m.objects.map Prod.fst := by
    intro hmem
    rw [← dictContains_iff] at hmem
    rw [hc] at hmem
    cases hmem
  have hfresh_pos : obj_id ∉ m.object_positions.map Prod.fst := fun hm =>
    hfresh_keys ((hiff obj_id).mp hm)
  have hne : m.objects.length = 0 → m.object_positions = [] := by
    intro h0
    have hobjnil : m.objects = [] := List.length_eq_zero.mp h0
    rw [List.eq_nil_iff_forall_not_mem]
    intro e he
    have hmem := (hiff e.1).mp (List.mem_map_of_mem Prod.fst he)
    rw [hobjnil] at hmem
    simp at hmem
  obtain ⟨hn_le, htake, hdrop⟩ := putIndex_ok_spec hsor hne hidx
  have hperm : (m.object_positions.insertIdx n_idx (obj_id, roundPos pos)).Perm
      ((obj_id, roundPos pos) :: m.object_positions) :=
    List.perm_insertIdx _ _ hn_le
  rw [heq]
  refine ⟨?_, ?_, ?_, ?_, ?_⟩
  · exact pairwise_insertIdx_of _ _ _ hn_le hsor htake hdrop
  · intro e he
    rcases (List.mem_insertIdx hn_le).mp he with rfl | he
    · exact roundPos_idem pos
    · exact hrnd e he
  · refine (hperm.map Prod.fst).nodup_iff.mpr ?_
    rw [List.map_cons, List.nodup_cons]
    exact ⟨hfresh_pos, hndp⟩
  · rw [List.map_append, List.nodup_append]
    refine ⟨hndo, by simp, ?_⟩
    intro a ha hb
    simp only [List.map_cons, List.map_nil, List.mem_singleton] at hb
    subst hb
    exact hfresh_keys ha
  · intro j
    rw [List.map_append]
    rw [(hperm.map Prod.fst).mem_iff]
    simp only [List.map_cons, List.mem_cons, List.mem_append, List.map_nil,
      List.mem_singleton]
    constructor
    · rintro (rfl | hj)
      · exact Or.inr (Or.inl rfl)
      · exact Or.inl ((hiff j).mp hj)
    · rintro (hj | rfl | hj)
      · exact Or.inr ((hiff j).mpr hj)
      · exact Or.inl rfl
      · cases hj

/-- A successful `removeObject` preserves well-formedness. -/
theorem removeObject_WF {m : ConveyorModel α} {obj_id : ℤ} {v : α}
    (hWF : WF m) (h : (m.removeObject obj_id).2 = .ok v) :
    WF (m.removeObject obj_id).1 := by
  obtain ⟨hsor, hrnd, hndp, hndo, hiff⟩ := hWF
  obtain ⟨i, s, hf, hg, hs, heq⟩ := removeObject_ok h
  rw [heq]
  obtain ⟨hi, hpi, -⟩ := List.findIdx?_eq_some_iff_getElem.mp hf
  have hid : (m.object_positions.get ⟨i, hi⟩).1 = obj_id := by simpa using hpi
  have hpop : dictPop m.objects obj_id =
      some (v, m.objects.eraseP (fun e => decide (e.1 = obj_id))) := by
    simp [dictPop, hg]
  obtain ⟨hnd', hkeys'⟩ := dictPop_keys hndo hpop
  have hsub := List.eraseIdx_sublist m.object_positions i
  refine ⟨hsor.sublist hsub, fun e he => hrnd e (hsub.subset he), ?_, hnd', ?_⟩
  · rw [map_eraseIdx']
    exact hndp.sublist (List.eraseIdx_sublist _ _)
  · intro j
    rw [map_eraseIdx']
    have hilen : i < (m.object_positions.map Prod.fst).length := by simpa using hi
    rw [nodup_mem_eraseIdx _ i hilen hndp j]
    have hgetm : (m.object_positions.map Prod.fst).get ⟨i, hilen⟩ = obj_id := by
      rw [List.get_map]
      exact hid
    rw [hgetm, hkeys' j, hiff j]

end ConveyorModel

/-- Linear search by predicate finds a freshly inserted element at its
insertion index when nothing else matches. -/
theorem findIdx?_insertIdx_fresh {β : Type} (p : β → Bool) (l : List β)
    (n : ℕ) (x : β) (hn : n ≤ l.length) (hl : ∀ e ∈ l, ¬ p e = true)
    (hx : p x = true) : (l.insertIdx n x).findIdx? p = some n := by
  rw [List.findIdx?_eq_some_iff_getElem]
  have hlen : (l.insertIdx n x).length = l.length + 1 :=
    List.length_insertIdx _ _ hn
  refine ⟨by omega, ?_, ?_⟩
  · rw [List.getElem_insertIdx_self l x n hn]
    exact hx
  · intro j hj
    have hjl : j < l.length := by omega
    rw [List.getElem_insertIdx_of_lt l x n j hj hjl]
    exact hl _ (List.getElem_mem hjl)

/-- Membership in the right part of a duplicate-free concatenation. -/
theorem nodup_append_mem_right {γ : Type} {l1 l2 : List γ}
    (hnd : (l1 ++ l2).Nodup) (j : γ) :
    j ∈ l2 ↔ j ∈ l1 ++ l2 ∧ j ∉ l1 := by
  rw [List.nodup_append] at hnd
  rw [List.mem_append]
  constructor
  · intro hj
    exact ⟨Or.inr hj, fun hj1 => hnd.2.2 hj1 hj⟩
  · rintro ⟨hj | hj, hnj⟩
    · exact absurd hj hnj
    · exact hj

namespace ConveyorModel

variable {α : Type}

/-- A successful `skipTime` preserves well-formedness. -/
theorem skipTime_WF {m : ConveyorModel α} {t : ℚ} {b : Bool} {r : ℚ}
    (hWF : WF m) (h : (m.skipTime t b).2 = .ok r) : WF (m.skipTime t b).1 := by
  obtain ⟨hsor, hrnd, hndp, hndo, hiff⟩ := hWF
  by_cases ht : t = 0
  · subst ht
    simp only [skipTime, if_pos rfl]
    exact ⟨hsor, hrnd, hndp, hndo, hiff⟩
  · set d := t * m.speed with hd
    set displaced :=
      m.object_positions.map (fun e => (e.1, roundPos (e.2 + d))) with hdisp
    have hids : displaced.map Prod.fst = m.object_positions.map Prod.fst := by
      rw [hdisp, List.map_map]
      rfl
    have hsor_disp : displaced.Pairwise (fun a b => a.2 < b.2) := by
      rw [hdisp, List.pairwise_map]
      refine pairwise_imp_of_mem ?_ hsor
      intro a ha b hb hab
      exact roundPos_add_strictMono d (hrnd a ha) (hrnd b hb) hab
    have hrnd_disp : ∀ e ∈ displaced, roundPos e.2 = e.2 := by
      intro e he
      rw [hdisp] at he
      obtain ⟨a, -, rfl⟩ := List.mem_map.mp he
      exact roundPos_idem _
    have hndp_disp : (displaced.map Prod.fst).Nodup := by rw [hids]; exact hndp
    have hsub_keys : ∀ i : ℤ, i ∈ displaced.map Prod.fst →
        i ∈ m.objects.map Prod.fst := by
      intro i hi
      rw [hids] at hi
      exact (hiff i).mp hi
    cases b with
    | false =>
      have hpost : (m.skipTime t false).1.object_positions = displaced ∧
          (m.skipTime t false).1.objects = m.objects := by
        cases hs : _model_automata m._state .change <;>
          simp [skipTime, ht, _stateTransfer, hs, hdisp, hd]
      refine ⟨hpost.1 ▸ hsor_disp, ?_, ?_, hpost.2 ▸ hndo, ?_⟩
      · rw [hpost.1]; exact hrnd_disp
      · rw [hpost.1]; exact hndp_disp
      · intro j
        rw [hpost.1, hpost.2, hids]
        exact hiff j
    | true =>
      obtain ⟨o1, hcf, hnd1, hkeys1⟩ :=
        cleanFront_spec displaced m.objects hndp_disp hndo hsub_keys
      set p1 : ℤ × ℚ → Bool := fun e => decide (e.2 < 0) with hp1
      set l1 := displaced.dropWhile p1 with hl1
      have hl1_sub : l1.Sublist displaced := List.dropWhile_sublist p1
      have hnd_l1 : (l1.map Prod.fst).Nodup :=
        hndp_disp.sublist (hl1_sub.map Prod.fst)
      have hsplit1 : (displaced.takeWhile p1).map Prod.fst ++
          l1.map Prod.fst = displaced.map Prod.fst := by
        rw [hl1, ← List.map_append, List.takeWhile_append_dropWhile]
      have hmem_l1 : ∀ j : ℤ, j ∈ l1.map Prod.fst →
          j ∈ displaced.map Prod.fst ∧
            j ∉ (displaced.takeWhile p1).map Prod.fst := by
        intro j hj
        have hnd_app : ((displaced.takeWhile p1).map Prod.fst ++
            l1.map Prod.fst).Nodup := by rw [hsplit1]; exact hndp_disp
        have := (nodup_append_mem_right hnd_app j).mp hj
        rw [hsplit1] at this
        exact this
      set p2 : ℤ × ℚ → Bool := fun e => decide (m.length < e.2) with hp2
      have hnd_rev : (l1.reverse.map Prod.fst).Nodup := by
        rw [List.map_reverse]
        exact List.nodup_reverse.mpr hnd_l1
      have hsub2 : ∀ i : ℤ, i ∈ l1.reverse.map Prod.fst →
          i ∈ o1.map Prod.fst := by
        intro i hi
        rw [List.map_reverse, List.mem_reverse] at hi
        obtain ⟨hi_disp, hi_ntw⟩ := hmem_l1 i hi
        exact (hkeys1 i).mpr ⟨hsub_keys i hi_disp, hi_ntw⟩
      obtain ⟨o2, hcb, hnd2, hkeys2⟩ :=
        cleanBackRev_spec m.length l1.reverse o1 hnd_rev hnd1 hsub2
      set l2 := (l1.reverse.dropWhile p2).reverse with hl2
      have hl2_sub : l2.Sublist l1 := by
        rw [hl2]
        have h0 : (l1.reverse.dropWhile p2).Sublist l1.reverse :=
          List.dropWhile_sublist p2
        have h1 := h0.reverse
        rwa [List.reverse_reverse] at h1
      have hpost : (m.skipTime t true).1.object_positions = l2 ∧
          (m.skipTime t true).1.objects = o2 := by
        cases hs : _model_automata m._state .change <;>
          simp [skipTime, ht, _stateTransfer, hs, ← hdisp, ← hd, hcf,
            cleanBack, hcb, hl2, hp2]
      have hmem_l2 : ∀ j : ℤ, j ∈ l2.map Prod.fst ↔
          j ∈ l1.map Prod.fst ∧
            j ∉ (l1.reverse.takeWhile p2).map Prod.fst := by
        intro j
        have hsplit2 : (l1.reverse.takeWhile p2).map Prod.fst ++
            (l1.reverse.dropWhile p2).map Prod.fst =
              l1.reverse.map Prod.fst := by
          rw [← List.map_append, List.takeWhile_append_dropWhile]
        have hnd_app : ((l1.reverse.takeWhile p2).map Prod.fst ++
            (l1.reverse.dropWhile p2).map Prod.fst).Nodup := by
          rw [hsplit2]; exact hnd_rev
        have hj2 : j ∈ l2.map Prod.fst ↔
            j ∈ (l1.reverse.dropWhile p2).map Prod.fst := by
          rw [hl2, List.map_reverse, List.mem_reverse]
        rw [hj2, nodup_append_mem_right hnd_app j, hsplit2,
          List.map_reverse, List.mem_reverse]
      refine ⟨hpost.1 ▸ (hsor_disp.sublist (hl2_sub.trans hl1_sub)), ?_, ?_,
        hpost.2 ▸ hnd2, ?_⟩
      · rw [hpost.1]
        exact fun e he => hrnd_disp e (hl1_sub.subset (hl2_sub.subset he))
      · rw [hpost.1]
        exact hnd_l1.sublist (hl2_sub.map Prod.fst)
      · intro j
        rw [hpost.1, hpost.2, hmem_l2 j, hkeys2 j, hkeys1 j]
        constructor
        · rintro ⟨hj_l1, hj_ntw2⟩
          obtain ⟨hj_disp, hj_ntw1⟩ := hmem_l1 j hj_l1
          exact ⟨⟨hsub_keys j hj_disp, hj_ntw1⟩, hj_ntw2⟩
        · rintro ⟨⟨hj_keys, hj_ntw1⟩, hj_ntw2⟩
          refine ⟨?_, hj_ntw2⟩
          have hj_disp : j ∈ displaced.map Prod.fst := by
            rw [hids]
            exact (hiff j).mpr hj_keys
          rcases (List.mem_append.mp (hsplit1 ▸ hj_disp)) with hj | hj
          · exact absurd hj hj_ntw1
          · exact hj

/-- Displaced store of `skipTime(t)`: every position advanced by
`t * speed` and re-rounded. -/
def displacedStore (m : ConveyorModel α) (t : ℚ) : List (ℤ × ℚ) :=
  m.object_positions.map (fun e => (e.1, roundPos (e.2 + t * m.speed)))

/-- Displaced store after the two clean-ends loops: the front loop pops
leading negative positions, the back loop pops trailing over-length ones. -/
def cleanedStore (m : ConveyorModel α) (t : ℚ) : List (ℤ × ℚ) :=
  (((displacedStore m t).dropWhile
      (fun e => decide (e.2 < 0))).reverse.dropWhile
    (fun e => decide (m.length < e.2))).reverse

/-- Full run of `skipTime` with end-cleaning on a well-formed state and
nonzero time: both clean loops succeed, the resulting position store is
`cleanedStore`, the call returns the displacement `t * speed` when the
`change` transition is legal and the protocol violation otherwise. -/
theorem skipTime_clean_run {m : ConveyorModel α} {t : ℚ}
    (hWF : WF m) (ht : ¬ t = 0) :
    ∃ o2 : List (ℤ × α),
      (∀ s, _model_automata m._state .change = some s →
        m.skipTime t true =
          ({ m with
              object_positions := cleanedStore m t
              objects := o2
              _state := s }, .ok (t * m.speed))) ∧
      (_model_automata m._state .change = none →
        m.skipTime t true =
          ({ m with
              object_positions := cleanedStore m t
              objects := o2 },
            .error (.automata .change m._state))) := by
  obtain ⟨hsor, hrnd, hndp, hndo, hiff⟩ := hWF
  set d := t * m.speed with hd
  set displaced := displacedStore m t with hdisp
  have hids : displaced.map Prod.fst = m.object_positions.map Prod.fst := by
    rw [hdisp, displacedStore, List.map_map]
    rfl
  have hndp_disp : (displaced.map Prod.fst).Nodup := by rw [hids]; exact hndp
  have hsub_keys : ∀ i : ℤ, i ∈ displaced.map Prod.fst →
      i ∈ m.objects.map Prod.fst := by
    intro i hi
    rw [hids] at hi
    exact (hiff i).mp hi
  obtain ⟨o1, hcf, hnd1, hkeys1⟩ :=
    cleanFront_spec displaced m.objects hndp_disp hndo hsub_keys
  set p1 : ℤ × ℚ → Bool := fun e => decide (e.2 < 0) with hp1
  set l1 := displaced.dropWhile p1 with hl1
  have hl1_sub : l1.Sublist displaced := List.dropWhile_sublist p1
  have hnd_l1 : (l1.map Prod.fst).Nodup :=
    hndp_disp.sublist (hl1_sub.map Prod.fst)
  have hsplit1 : (displaced.takeWhile p1).map Prod.fst ++
      l1.map Prod.fst = displaced.map Prod.fst := by
    rw [hl1, ← List.map_append, List.takeWhile_append_dropWhile]
  have hnd_rev : (l1.reverse.map Prod.fst).Nodup := by
    rw [List.map_reverse]
    exact List.nodup_reverse.mpr hnd_l1
  have hsub2 : ∀ i : ℤ, i ∈ l1.reverse.map Prod.fst →
      i ∈ o1.map Prod.fst := by
    intro i hi
    rw [List.map_reverse, List.mem_reverse] at hi
    have hnd_app : ((displaced.takeWhile p1).map Prod.fst ++
        l1.map Prod.fst).Nodup := by rw [hsplit1]; exact hndp_disp
    have hi2 := (nodup_append_mem_right hnd_app i).mp hi
    rw [hsplit1] at hi2
    exact (hkeys1 i).mpr ⟨hsub_keys i hi2.1, hi2.2⟩
  obtain ⟨o2, hcb, hnd2, hkeys2⟩ :=
    cleanBackRev_spec m.length l1.reverse o1 hnd_rev hnd1 hsub2
  refine ⟨o2, ?_, ?_⟩
  · intro s hs
    simp [skipTime, ht, _stateTransfer, hs, ← hd,
      (show m.object_positions.map (fun e => (e.1, roundPos (e.2 + d))) =
        displaced from rfl),
      hcf, cleanBack, hcb, cleanedStore, ← hdisp, hl1, hp1]
  · intro hs
    simp [skipTime, ht, _stateTransfer, hs, ← hd,
      (show m.object_positions.map (fun e => (e.1, roundPos (e.2 + d))) =
        displaced from rfl),
      hcf, cleanBack, hcb, cleanedStore, ← hdisp, hl1, hp1]

/-- On a well-formed state the cleaned store is exactly the displaced store
filtered to the on-segment positions: sortedness pushes every dropped entry
to one of the two ends. -/
theorem cleanedStore_eq_filter {m : ConveyorModel α} (t : ℚ) (hWF : WF m) :
    cleanedStore m t = (displacedStore m t).filter
      (fun e => decide (0 ≤ e.2) && decide (e.2 ≤ m.length)) := by
  obtain ⟨hsor, hrnd, -, -, -⟩ := hWF
  have hsor_disp : (displacedStore m t).Pairwise (fun a b => a.2 < b.2) := by
    rw [displacedStore, List.pairwise_map]
    refine pairwise_imp_of_mem ?_ hsor
    intro a ha b hb hab
    exact roundPos_add_strictMono _ (hrnd a ha) (hrnd b hb) hab
  have hfront : (displacedStore m t).dropWhile (fun e => decide (e.2 < 0)) =
      (displacedStore m t).filter (fun e => ! decide (e.2 < 0)) := by
    refine dropWhile_eq_filter_of_pairwise _ ?_ _ hsor_disp
    intro a b hab hb
    simp only [decide_eq_true_eq] at hb ⊢
    linarith
  have hsor_l1 : ((displacedStore m t).filter
      (fun e => ! decide (e.2 < 0))).Pairwise (fun a b => a.2 < b.2) :=
    hsor_disp.filter _
  have hback : ((displacedStore m t).filter
        (fun e => ! decide (e.2 < 0))).reverse.dropWhile
        (fun e => decide (m.length < e.2)) =
      ((displacedStore m t).filter
        (fun e => ! decide (e.2 < 0))).reverse.filter
        (fun e => ! decide (m.length < e.2)) := by
    refine @dropWhile_eq_filter_of_pairwise (ℤ × ℚ)
      (fun a b => b.2 < a.2) _ ?_ _ ?_
    · intro a b hab hb
      simp only [decide_eq_true_eq] at hb ⊢
      linarith
    · rw [List.pairwise_reverse]
      exact hsor_l1
  rw [cleanedStore, hfront, hback, List.filter_reverse, List.reverse_reverse,
    List.filter_filter]
  refine List.filter_congr ?_
  intro e _
  rw [← decide_not, ← decide_not, decide_eq_decide.mpr not_lt,
    decide_eq_decide.mpr not_lt, Bool.and_comm]

/-- A successful `pause` preserves well-formedness. -/
theorem pause_WF {m : ConveyorModel α} {t : ℚ}
    (hWF : WF m) (h : (m.pause t).2 = .ok ()) : WF (m.pause t).1 := by
  cases hs : _model_automata m._state .pause with
  | none => simp [pause, _stateTransfer, hs] at h
  | some s =>
    have hWF1 : WF { m with _state := s } := WF_of_store_eq rfl rfl hWF
    by_cases hneg : t - m._resume_time < 0
    · simp [pause, _stateTransfer, hs, hneg] at h
    · cases hsk : ConveyorModel.skipTime { m with _state := s }
          (t - m._resume_time) with
      | mk m2 r2 =>
        cases r2 with
        | error e => simp [pause, _stateTransfer, hs, hneg, hsk] at h
        | ok r =>
          have hpost : (m.pause t).1 = m2 := by
            simp [pause, _stateTransfer, hs, hneg, hsk]
          rw [hpost]
          have hWF2 := skipTime_WF hWF1
            (show (ConveyorModel.skipTime { m with _state := s }
              (t - m._resume_time)).2 = .ok r by rw [hsk])
          rwa [hsk] at hWF2

/-- Normal-return test on an operation result. -/
def isOkE {ε ρ : Type} : Except ε ρ → Bool
  | .ok _ => true
  | .error _ => false

end ConveyorModel

/-- The public state-changing operations of the model, as one type, so that
state invariants can be stated over every operation at once. -/
inductive Op (α : Type) where
  | setSpeed (v : ℚ)
  | putObject (obj_id : ℤ) (obj : α) (pos : ℚ)
  | removeObject (obj_id : ℤ)
  | skipTime (t : ℚ) (clean_ends : Bool)
  | resume (t : ℚ)
  | pause (t : ℚ)
  | startResolving
  | endResolving

namespace ConveyorModel

variable {α : Type}

/-- Run one public operation, returning the post-state and whether the call
returned normally (`true`) or raised (`false`). -/
def applyOp (m : ConveyorModel α) : Op α → ConveyorModel α × Bool
  | .setSpeed v => ((m.setSpeed v).1, isOkE (m.setSpeed v).2)
  | .putObject obj_id obj pos =>
    ((m.putObject obj_id obj pos).1, isOkE (m.putObject obj_id obj pos).2)
  | .removeObject obj_id =>
    ((m.removeObject obj_id).1, isOkE (m.removeObject obj_id).2)
  | .skipTime t b => ((m.skipTime t b).1, isOkE (m.skipTime t b).2)
  | .resume t => ((m.resume t).1, isOkE (m.resume t).2)
  | .pause t => ((m.pause t).1, isOkE (m.pause t).2)
  | .startResolving => (m.startResolving.1, isOkE m.startResolving.2)
  | .endResolving => (m.endResolving.1, isOkE m.endResolving.2)

end ConveyorModel

/-- String constant for the default world agent id. -/
def strWorld : String := "world"

/-- An empty pristine model over integer payloads, used for the concrete
instances below.  Length 10, maximum speed 5, current speed 0. -/
def emptyModel : ConveyorModel ℤ :=
  { model_id := (strWorld, 0), checkpoints := [], length := 10, max_speed := 5,
    _state := .pristine, _resume_time := 0, speed := 0, objects := [],
    object_positions := [] }

/-- The empty model in the `moving` automaton state (resume marker 0). -/
def movingModel : ConveyorModel ℤ := { emptyModel with _state := .moving }

namespace ConveyorModel

/-- C5: after every public operation that returns successfully on a
well-formed state, the state is again well-formed; in particular
`object_positions` stays strictly sorted ascending by (rounded) position,
so no two entries share the same rounded position — including after
`skipTime` displaces and re-rounds every position. -/
theorem C5_positions_sorted_nodup {α : Type} (m : ConveyorModel α)
    (op : Op α) (hWF : WF m) (hok : (applyOp m op).2 = true) :
    WF (applyOp m op).1 := by
  cases op with
  | setSpeed v =>
    exact WF_of_store_eq (setSpeed_store m v).1 (setSpeed_store m v).2 hWF
  | putObject obj_id obj pos =>
    have hok' : isOkE (m.putObject obj_id obj pos).2 = true := hok
    cases hr : (m.putObject obj_id obj pos).2 with
    | error e => rw [hr] at hok'; cases hok'
    | ok u => cases u; exact putObject_WF hWF hr
  | removeObject obj_id =>
    have hok' : isOkE (m.removeObject obj_id).2 = true := hok
    cases hr : (m.removeObject obj_id).2 with
    | error e => rw [hr] at hok'; cases hok'
    | ok v => exact removeObject_WF hWF hr
  | skipTime t b =>
    have hok' : isOkE (m.skipTime t b).2 = true := hok
    cases hr : (m.skipTime t b).2 with
    | error e => rw [hr] at hok'; cases hok'
    | ok r => exact skipTime_WF hWF hr
  | resume t =>
    exact WF_of_store_eq (resume_store m t).1 (resume_store m t).2 hWF
  | pause t =>
    have hok' : isOkE (m.pause t).2 = true := hok
    cases hr : (m.pause t).2 with
    | error e => rw [hr] at hok'; cases hok'
    | ok u => cases u; exact pause_WF hWF hr
  | startResolving =>
    exact WF_of_store_eq (_stateTransfer_store m .start_resolving).1
      (_stateTransfer_store m .start_resolving).2 hWF
  | endResolving =>
    exact WF_of_store_eq (_stateTransfer_store m .end_resolving).1
      (_stateTransfer_store m .end_resolving).2 hWF

/-- Witness for C5 at a concrete input: placing object 1 at position `1/2`
on the empty model succeeds and preserves well-formedness. -/
theorem C5_positions_sorted_nodup_witness :
    WF emptyModel ∧
    (applyOp emptyModel (Op.putObject 1 7 (1/2))).2 = true ∧
    WF (applyOp emptyModel (Op.putObject 1 7 (1/2))).1 := by
  have hwf : WF emptyModel := by
    simp [WF, emptyModel]
  have hok : (applyOp emptyModel (Op.putObject 1 7 (1/2))).2 = true := by
    simp [applyOp, isOkE, putObject, putIndex, dictContains, dictSet,
      _stateTransfer, _model_automata, emptyModel]
  exact ⟨hwf, hok, C5_positions_sorted_nodup _ _ hwf hok⟩

/-- C8: `skipTime(0)` is a no-op returning 0: the model — every object
position, the object map, the speed and the automaton state — is returned
untouched and the automaton's `change` action is not fired, so the call
succeeds in every state, including `moving`. -/
theorem C8_skipTime_zero_noop {α : Type} (m : ConveyorModel α) (b : Bool) :
    m.skipTime 0 b = (m, .ok 0) := by
  simp [skipTime]

/-- C9: `checkpointPos` on any identifier whose first component is
`'conv_end'` returns the segment length, for every model (whatever its
stored checkpoint table) and every second component: the end-of-segment
sentinel is recognized by its first component alone and the table is never
consulted. -/
theorem C9_checkpointPos_conv_end {α : Type} (m : ConveyorModel α)
    (cp : CpId) (h : cp.1 = strConvEnd) :
    m.checkpointPos cp = .ok m.length := by
  simp [checkpointPos, h]

end ConveyorModel

/-- A model whose checkpoint table stores position 7 under the identifier
`('conv_end', -1)`, to show the table is ignored for that identifier. -/
def convEndModel : ConveyorModel ℤ :=
  { emptyModel with checkpoints := [((strConvEnd, -1), 7)] }

namespace ConveyorModel

/-- Witness for C9: on `convEndModel` the lookup answers the length 10,
not the stored 7. -/
theorem C9_checkpointPos_conv_end_witness :
    (strConvEnd, (-1 : ℤ)).1 = strConvEnd ∧
    convEndModel.checkpointPos (strConvEnd, -1) = .ok 10 :=
  ⟨rfl, C9_checkpointPos_conv_end convEndModel (strConvEnd, -1) rfl⟩

/-- C1 counterexample: `putObject` on a model in the `moving` state raises
the protocol violation only after inserting into both stores, so this
failed call leaves the inserted entry visible — the object map and position
store are not as they were before the call. -/
theorem C1_counterexample :
    (movingModel.putObject 1 7 0).2 = .error (.automata .change .moving) ∧
    (movingModel.putObject 1 7 0).1.object_positions = [(1, 0)] ∧
    movingModel.object_positions = [] := by
  have hr : roundPos 0 = 0 := by norm_num [roundPos, posScale]
  refine ⟨?_, ?_, rfl⟩ <;>
    simp [putObject, putIndex, dictContains, dictSet, _stateTransfer,
      _model_automata, movingModel, emptyModel, hr]

/-- C1 (amended): a collision failure of `putObject` leaves the model
exactly unchanged, and so do the pre-mutation asserts (a clashing id in
`putObject`, an out-of-range speed in `setSpeed`, removal of an absent id);
but failures raised after a mutation keep that mutation visible:
`putObject`, `removeObject` and `skipTime` fire the automaton's `change`
action only after mutating the stores, so their protocol violations in the
`moving` state return the mutated stores together with the error, and a
`pause` whose elapsed-time assert fails has already moved the automaton
from `moving` to `pristine`. -/
theorem C1_failure_mutation {α : Type} (m : ConveyorModel α) :
    (∀ (obj_id : ℤ) (obj : α) (pos : ℚ) (o1 o2 : α) (p : ℚ) (hd : AgentId),
      (m.putObject obj_id obj pos).2 = .error (.collision o1 o2 p hd) →
      (m.putObject obj_id obj pos).1 = m) ∧
    (∀ (obj_id : ℤ) (obj : α) (pos : ℚ),
      dictContains m.objects obj_id = true →
      m.putObject obj_id obj pos = (m, .error (.assertion msgClash))) ∧
    (∀ v : ℚ, ¬ (0 ≤ v ∧ v ≤ m.max_speed) →
      m.setSpeed v = (m, .error (.assertion msgSpeed))) ∧
    (∀ obj_id : ℤ, obj_id ∉ m.object_positions.map Prod.fst →
      m.removeObject obj_id = (m, .error .typeError)) ∧
    (m._state = .moving →
      (∀ (obj_id : ℤ) (obj : α) (pos : ℚ) (n_idx : ℕ),
        ¬ dictContains m.objects obj_id = true →
        m.putIndex obj (roundPos pos) = .ok n_idx →
        m.putObject obj_id obj pos =
          ({ m with
              objects := dictSet m.objects obj_id obj
              object_positions :=
                m.object_positions.insertIdx n_idx (obj_id, roundPos pos) },
            .error (.automata .change .moving))) ∧
      (∀ (obj_id : ℤ) (i : ℕ) (v : α),
        m.object_positions.findIdx? (fun e => e.1 = obj_id) = some i →
        dictGet m.objects obj_id = some v →
        m.removeObject obj_id =
          ({ m with
              object_positions := m.object_positions.eraseIdx i
              objects := m.objects.eraseP (fun e => decide (e.1 = obj_id)) },
            .error (.automata .change .moving))) ∧
      (∀ t : ℚ, ¬ t = 0 → WF m →
        ∃ o2 : List (ℤ × α), m.skipTime t true =
          ({ m with object_positions := cleanedStore m t, objects := o2 },
            .error (.automata .change .moving)))) ∧
    (∀ t : ℚ, m._state = .moving → t < m._resume_time →
      m.pause t =
        ({ m with _state := .pristine }, .error (.assertion msgPause))) := by
  refine ⟨?_, ?_, ?_, ?_, ?_, ?_⟩
  · intro obj_id obj pos o1 o2 p hd hcol
    by_cases hc : dictContains m.objects obj_id
    · simp [putObject, hc]
    · cases hidx : m.putIndex obj (roundPos pos) with
      | error e => simp [putObject, hc, hidx]
      | ok n_idx =>
        cases hs : _model_automata m._state .change with
        | some s => simp [putObject, hc, hidx, _stateTransfer, hs] at hcol
        | none => simp [putObject, hc, hidx, _stateTransfer, hs] at hcol
  · intro obj_id obj pos hc
    simp [putObject, hc]
  · intro v hv
    unfold setSpeed
    rw [if_pos hv]
  · intro obj_id hnot
    have hf : m.object_positions.findIdx? (fun e => e.1 = obj_id) = none := by
      rw [List.findIdx?_eq_none_iff]
      intro e he
      have hne : ¬ e.1 = obj_id := fun habs =>
        hnot (habs ▸ List.mem_map_of_mem Prod.fst he)
      simp [hne]
    simp [removeObject, hf]
  · intro hst
    have hchange : _model_automata m._state .change = none := by
      rw [hst]; rfl
    refine ⟨?_, ?_, ?_⟩
    · intro obj_id obj pos n_idx hfresh hidx
      simp [putObject, hfresh, hidx, _stateTransfer, _model_automata, hst]
    · intro obj_id i v hf hg
      simp [removeObject, hf, dictPop, hg, _stateTransfer, _model_automata,
        hst]
    · intro t ht hWF
      obtain ⟨o2, -, hrun2⟩ := skipTime_clean_run hWF ht
      refine ⟨o2, ?_⟩
      rw [hrun2 hchange, hst]
  · intro t hst hlt
    have hneg : t - m._resume_time < 0 := by linarith
    simp [pause, _stateTransfer, hst, _model_automata, hneg]

/-- C2 counterexample: on the moving model (resume marker 0, speed 0),
`pause 1` is a successful call with `1` at-or-after the marker, yet the
automaton settles in `dirty`, not `pristine`: the materializing `skipTime`
fires `change` right after the `pause` transition. -/
theorem C2_counterexample :
    movingModel._state = .moving ∧ movingModel._resume_time ≤ 1 ∧
    (movingModel.pause 1).2 = .ok () ∧
    (movingModel.pause 1).1._state = .dirty := by
  refine ⟨rfl, by norm_num [movingModel, emptyModel], ?_, ?_⟩ <;>
    norm_num [pause, skipTime, cleanFront, cleanBack, cleanBackRev,
      _stateTransfer, _model_automata, movingModel, emptyModel]

/-- C2 (amended): a `pause(t)` in the `moving` state with `t` at or after
the resume marker succeeds and materializes the elapsed motion via
`skipTime(t - marker)`; the automaton settles in `pristine` only when `t`
equals the marker (zero elapsed time, so `skipTime` returns early without
firing `change`) — otherwise the materializing `skipTime` fires `change`
and the call returns with the automaton in `dirty`. -/
theorem C2_pause_state {α : Type} (m : ConveyorModel α) (t : ℚ)
    (hWF : WF m) (hst : m._state = .moving) (hle : m._resume_time ≤ t) :
    (m.pause t).2 = .ok () ∧
    (m.pause t).1._state =
      (if t = m._resume_time then AutomState.pristine else .dirty) := by
  have hps : _model_automata m._state .pause = some .pristine := by
    rw [hst]; rfl
  have hneg : ¬ t - m._resume_time < 0 := by linarith
  by_cases hteq : t = m._resume_time
  · have hdiff : t - m._resume_time = 0 := by rw [hteq]; ring
    constructor <;>
      simp [pause, _stateTransfer, hps, hneg, hdiff, skipTime, hteq]
  · have hdiff : ¬ t - m._resume_time = 0 := sub_ne_zero.mpr hteq
    have hWF1 : WF { m with _state := AutomState.pristine } :=
      WF_of_store_eq rfl rfl hWF
    obtain ⟨o2, hrun, -⟩ := skipTime_clean_run hWF1 hdiff
    have hchange : _model_automata
        ({ m with _state := AutomState.pristine })._state .change =
          some .dirty := rfl
    have hrun' := hrun .dirty hchange
    constructor <;>
      simp [pause, _stateTransfer, hps, hneg, hrun', hteq]

/-- C3 counterexample: in the `moving` state, `setSpeed` called with the
current speed — an argument satisfying the operation's own precondition
`0 ≤ v ≤ max_speed` — succeeds as a no-op instead of failing with a
protocol violation; so not every mutating call fails in `moving`. -/
theorem C3_counterexample :
    movingModel._state = .moving ∧
    (0 : ℚ) ≤ 0 ∧ (0 : ℚ) ≤ movingModel.max_speed ∧
    movingModel.setSpeed 0 = (movingModel, .ok ()) := by
  refine ⟨rfl, le_refl 0, by norm_num [movingModel, emptyModel], ?_⟩
  norm_num [setSpeed, movingModel, emptyModel]

/-- C3 (amended): in the `moving` state every mutating call that would fire
the automaton's `change` action fails with the protocol violation for
`change` in `moving`: `setSpeed` with an in-range speed different from the
current one, `putObject` with a fresh id and non-colliding position,
`removeObject` with a present id, and `skipTime` with nonzero time (with or
without end-cleaning; with cleaning, on a well-formed state).  The mutating
entry points that skip `change` — `setSpeed` at the current speed and
`skipTime(0)` — succeed instead, as the counterexample shows. -/
theorem C3_moving_rejects_mutation {α : Type} (m : ConveyorModel α)
    (hst : m._state = .moving) :
    (∀ v : ℚ, 0 ≤ v → v ≤ m.max_speed → ¬ v = m.speed →
      (m.setSpeed v).2 = .error (.automata .change .moving)) ∧
    (∀ (obj_id : ℤ) (obj : α) (pos : ℚ),
      ¬ dictContains m.objects obj_id = true →
      (m.objects = [] ∨
        (¬ m.object_positions = [] ∧
          roundPos pos ∉ m.object_positions.map Prod.snd)) →
      (m.putObject obj_id obj pos).2 = .error (.automata .change .moving)) ∧
    (∀ obj_id : ℤ, obj_id ∈ m.object_positions.map Prod.fst →
      obj_id ∈ m.objects.map Prod.fst →
      (m.removeObject obj_id).2 = .error (.automata .change .moving)) ∧
    (∀ t : ℚ, ¬ t = 0 → WF m →
      (m.skipTime t true).2 = .error (.automata .change .moving)) ∧
    (∀ t : ℚ, ¬ t = 0 →
      (m.skipTime t false).2 = .error (.automata .change .moving)) := by
  have hchange : _model_automata m._state .change = none := by
    rw [hst]; rfl
  refine ⟨?_, ?_, ?_, ?_, ?_⟩
  · intro v h0 hmax hne
    have hcond : 0 ≤ v ∧ v ≤ m.max_speed := ⟨h0, hmax⟩
    have hne' : m.speed ≠ v := fun h => hne h.symm
    simp [setSpeed, hcond, hne', _stateTransfer, _model_automata, hst]
  · intro obj_id obj pos hfresh hcase
    obtain ⟨n, hidx⟩ : ∃ n, m.putIndex obj (roundPos pos) = .ok n := by
      by_cases hlen : 0 < m.objects.length
      · rcases hcase with hnil | ⟨hpos, hnotin⟩
        · rw [hnil] at hlen
          simp at hlen
        · cases hsp : search_pos m.object_positions (roundPos pos) with
          | none =>
            rw [search_pos_eq_none_iff] at hsp
            exact absurd hsp hpos
          | some bi =>
            obtain ⟨⟨nid, np⟩, ni⟩ := bi
            have hmem := search_pos_mem _ _ _ _ hsp
            have hne : ¬ np = roundPos pos := by
              intro h
              apply hnotin
              rw [← h]
              exact List.mem_map_of_mem Prod.snd hmem
            by_cases hlt : np < roundPos pos
            · exact ⟨ni + 1, by simp [putIndex, hlen, hsp, hne, hlt]⟩
            · exact ⟨ni, by simp [putIndex, hlen, hsp, hne, hlt]⟩
      · exact ⟨0, by simp [putIndex, hlen]⟩
    simp [putObject, hfresh, hidx, _stateTransfer, _model_automata, hst]
  · intro obj_id hpos hkeys
    cases hf : m.object_positions.findIdx? (fun e => e.1 = obj_id) with
    | none =>
      rw [List.findIdx?_eq_none_iff] at hf
      obtain ⟨e, he, heq⟩ := List.mem_map.mp hpos
      have := hf e he
      simp [heq] at this
    | some i =>
      obtain ⟨v, hv⟩ := Option.isSome_iff_exists.mp
        ((dictGet_isSome_iff _ _).mpr ((dictContains_iff _ _).mpr hkeys))
      simp [removeObject, hf, dictPop, hv, _stateTransfer, _model_automata, hst]
  · intro t ht hWF
    obtain ⟨o2, -, hrun⟩ := skipTime_clean_run hWF ht
    rw [hrun hchange, hst]
  · intro t ht
    simp [skipTime, ht, _stateTransfer, _model_automata, hst]

end ConveyorModel

/-- A moving model holding one object (id 5, payload 9, position 1), for
the C3 instances. -/
def movingObjModel : ConveyorModel ℤ :=
  { emptyModel with
    _state := .moving
    objects := [(5, 9)]
    object_positions := [(5, 1)] }

/-- A pristine model at speed 2 holding one object (id 5, payload 9,
position 1), for the C6 instance. -/
def speedModel : ConveyorModel ℤ :=
  { emptyModel with
    objects := [(5, 9)]
    object_positions := [(5, 1)]
    speed := 2 }

namespace ConveyorModel

/-- Witness for C3 (amended): every change-firing mutation on the moving
one-object model fails with the protocol violation. -/
theorem C3_moving_rejects_mutation_witness :
    movingObjModel._state = .moving ∧
    (movingObjModel.setSpeed 1).2 = .error (.automata .change .moving) ∧
    (movingObjModel.putObject 2 7 2).2 = .error (.automata .change .moving) ∧
    (movingObjModel.removeObject 5).2 = .error (.automata .change .moving) ∧
    (movingObjModel.skipTime 1 true).2 =
      .error (.automata .change .moving) := by
  have h := C3_moving_rejects_mutation movingObjModel rfl
  have hr2 : roundPos 2 = 2 := by norm_num [roundPos, posScale]
  have hwf : WF movingObjModel := by
    refine ⟨by simp [movingObjModel, emptyModel], ?_,
      by simp [movingObjModel, emptyModel],
      by simp [movingObjModel, emptyModel],
      by simp [movingObjModel, emptyModel]⟩
    intro e he
    have he' : e = ((5 : ℤ), (1 : ℚ)) := by
      simpa [movingObjModel, emptyModel] using he
    rw [he']
    norm_num [roundPos, posScale]
  refine ⟨rfl,
    h.1 1 (by norm_num) (by norm_num [movingObjModel, emptyModel])
      (by norm_num [movingObjModel, emptyModel]), ?_, ?_, ?_⟩
  · refine h.2.1 2 7 2 (by simp [dictContains, movingObjModel, emptyModel]) ?_
    right
    refine ⟨by simp [movingObjModel, emptyModel], ?_⟩
    rw [hr2]
    norm_num [movingObjModel, emptyModel]
  · exact h.2.2.1 5 (by simp [movingObjModel, emptyModel])
      (by simp [movingObjModel, emptyModel])
  · exact h.2.2.2.1 1 (by norm_num) hwf

/-- Witness for C2 (amended): the moving model paused at time 1. -/
theorem C2_pause_state_witness :
    WF movingModel ∧ movingModel._state = .moving ∧
    movingModel._resume_time ≤ 1 ∧
    (movingModel.pause 1).2 = .ok () ∧
    (movingModel.pause 1).1._state = .dirty := by
  have hwf : WF movingModel := by simp [WF, movingModel, emptyModel]
  have hle : movingModel._resume_time ≤ 1 := by
    norm_num [movingModel, emptyModel]
  have h := C2_pause_state movingModel 1 hwf rfl hle
  refine ⟨hwf, rfl, hle, h.1, ?_⟩
  rw [h.2]
  norm_num [movingModel, emptyModel]

end ConveyorModel

/-- A dirty model holding object 5 (payload 9) at position `1/2`, for the
collision instances. -/
def collModel : ConveyorModel ℤ :=
  { emptyModel with
    objects := [(5, 9)], object_positions := [(5, 1)], _state := .dirty }

namespace ConveyorModel

/-- C7: a successful `putObject` of an id not already present, immediately
followed by `removeObject` of that id, restores `object_positions` and
`objects` to exactly their prior contents, and the removal returns the
payload that was placed. -/
theorem C7_put_remove_roundtrip {α : Type} (m : ConveyorModel α)
    (obj_id : ℤ) (obj : α) (pos : ℚ)
    (hnotpos : obj_id ∉ m.object_positions.map Prod.fst)
    (hok : (m.putObject obj_id obj pos).2 = .ok ()) :
    ((m.putObject obj_id obj pos).1.removeObject obj_id).2 = .ok obj ∧
    ((m.putObject obj_id obj pos).1.removeObject obj_id).1.object_positions
      = m.object_positions ∧
    ((m.putObject obj_id obj pos).1.removeObject obj_id).1.objects
      = m.objects := by
  obtain ⟨hc, n_idx, s, hidx, hs, heq⟩ := putObject_ok hok
  have hc' : ¬ dictContains m.objects obj_id = true := by simp [hc]
  have hn_le : n_idx ≤ m.object_positions.length := putIndex_ok_le hidx
  have hfind : ((m.object_positions.insertIdx n_idx
      (obj_id, roundPos pos)).findIdx? (fun e => e.1 = obj_id)) =
        some n_idx := by
    refine findIdx?_insertIdx_fresh _ _ _ _ hn_le ?_ (by simp)
    intro e he
    simp only [decide_eq_true_eq]
    intro habs
    exact hnotpos (habs ▸ List.mem_map_of_mem Prod.fst he)
  have hpop := dictPop_append_fresh hc' obj
  have hs2 : ∃ s2, _model_automata s .change = some s2 := by
    cases hst : m._state <;> rw [hst] at hs <;>
      simp [_model_automata] at hs <;> subst hs <;> exact ⟨_, rfl⟩
  obtain ⟨s2, hs2⟩ := hs2
  rw [heq]
  refine ⟨?_, ?_, ?_⟩ <;>
    simp [removeObject, hfind, hpop, _stateTransfer, hs2,
      List.eraseIdx_insertIdx]

/-- C10: for nonzero `t`, `skipTime(t)` on a model with speed 0 (stored
positions rounded and within the segment) leaves every entry of
`object_positions` and the whole object map unchanged and returns 0, yet
fires the automaton's `change` action: from a state where `change` is
legal the automaton moves along it (`pristine` to `dirty`) with result
`ok 0`, and where it is illegal (`moving`) the call is rejected — so it is
not a no-op on the automaton state even though nothing is displaced. -/
theorem C10_skipTime_speed_zero {α : Type} (m : ConveyorModel α) (t : ℚ)
    (hspeed : m.speed = 0) (ht : ¬ t = 0)
    (hrnd : ∀ e ∈ m.object_positions, roundPos e.2 = e.2)
    (hrange : ∀ e ∈ m.object_positions, 0 ≤ e.2 ∧ e.2 ≤ m.length) :
    ((m.skipTime t true).1.object_positions = m.object_positions ∧
      (m.skipTime t true).1.objects = m.objects) ∧
    (∀ s, _model_automata m._state .change = some s →
      m.skipTime t true = ({ m with _state := s }, .ok 0)) ∧
    (_model_automata m._state .change = none →
      m.skipTime t true = (m, .error (.automata .change m._state))) := by
  have hdisp : m.object_positions.map
      (fun e => (e.1, roundPos e.2)) = m.object_positions := by
    conv_rhs => rw [← List.map_id m.object_positions]
    refine List.map_congr_left ?_
    intro e he
    rw [hrnd e he]
    rfl
  have hcf := cleanFront_no_drop m.object_positions m.objects
    (fun e he => not_lt.mpr (hrange e he).1)
  have hcb := cleanBackRev_no_drop m.length m.object_positions.reverse
    m.objects (fun e he =>
      not_lt.mpr (hrange e (List.mem_reverse.mp he)).2)
  have hd0 : t * m.speed = 0 := by rw [hspeed, mul_zero]
  refine ⟨?_, ?_, ?_⟩
  · constructor <;>
      cases hs : _model_automata m._state .change <;>
        simp [skipTime, ht, hspeed, hdisp, hcf, cleanBack, hcb,
          List.reverse_reverse, _stateTransfer, hs]
  · intro s hs
    simp [skipTime, ht, hspeed, hdisp, hcf, cleanBack, hcb,
      List.reverse_reverse, _stateTransfer, hs]
  · intro hs
    simp [skipTime, ht, hspeed, hdisp, hcf, cleanBack, hcb,
      List.reverse_reverse, _stateTransfer, hs]
    rw [← hspeed]

/-- C6: from a well-formed `pristine` or `resolved` state whose positions
lie within the segment, with constant speed `s`, `resume(t0)` followed by
`pause(t)` with `t0 ≤ t` succeeds and displaces every object's position by
exactly `s × (t − t0)` — subject to fixed-precision rounding and to the
end-removal rule of `skipTime` (exactly the displaced entries within
`[0, length]` are kept); and `pause(t)` with `t < t0` fails with the
`time_diff >= 0` assertion. -/
theorem C6_resume_pause_displacement {α : Type} (m : ConveyorModel α)
    (t0 t : ℚ) (hWF : WF m)
    (hrange : ∀ e ∈ m.object_positions, 0 ≤ e.2 ∧ e.2 ≤ m.length)
    (hst : m._state = .pristine ∨ m._state = .resolved) :
    (t0 ≤ t →
      ((m.resume t0).1.pause t).2 = .ok () ∧
      ((m.resume t0).1.pause t).1.object_positions =
        (m.object_positions.map
          (fun e => (e.1, roundPos (e.2 + m.speed * (t - t0))))).filter
          (fun e => decide (0 ≤ e.2) && decide (e.2 ≤ m.length))) ∧
    (t < t0 →
      ((m.resume t0).1.pause t).2 = .error (.assertion msgPause)) := by
  have hres : _model_automata m._state .resume = some .moving := by
    rcases hst with h | h <;> rw [h] <;> rfl
  have hresume : (m.resume t0).1 =
      { m with _state := .moving, _resume_time := t0 } := by
    simp [resume, _stateTransfer, hres]
  rw [hresume]
  constructor
  · intro hle
    have hnneg : ¬ t - t0 < 0 := by linarith
    by_cases hteq : t = t0
    · have hdiff0 : t - t0 = 0 := by rw [hteq]; ring
      have hmap0 : m.object_positions.map
          (fun e => (e.1, roundPos e.2)) = m.object_positions := by
        conv_rhs => rw [← List.map_id m.object_positions]
        refine List.map_congr_left ?_
        intro e he
        rw [hWF.2.1 e he]
        rfl
      have hfil : m.object_positions.filter
          (fun e => decide (0 ≤ e.2) && decide (e.2 ≤ m.length)) =
            m.object_positions := by
        rw [List.filter_eq_self]
        intro e he
        have hr := hrange e he
        simp [hr.1, hr.2]
      constructor
      · simp [pause, _stateTransfer, _model_automata, hnneg, hdiff0,
          skipTime]
      · simp [pause, _stateTransfer, _model_automata, hnneg, hdiff0,
          skipTime, hmap0, hfil]
    · have hdiffne : ¬ t - t0 = 0 := sub_ne_zero.mpr hteq
      have hWF2 : WF { m with
          _state := AutomState.pristine
          _resume_time := t0 } := WF_of_store_eq rfl rfl hWF
      obtain ⟨o2, hrun, -⟩ := @skipTime_clean_run α
        { m with _state := AutomState.pristine, _resume_time := t0 }
        (t - t0) hWF2 hdiffne
      have hrun' := hrun .dirty rfl
      have hclean := @cleanedStore_eq_filter α
        { m with _state := AutomState.pristine, _resume_time := t0 }
        (t - t0) hWF2
      have hcomm : m.object_positions.map
          (fun e => (e.1, roundPos (e.2 + (t - t0) * m.speed))) =
          m.object_positions.map
          (fun e => (e.1, roundPos (e.2 + m.speed * (t - t0)))) := by
        refine List.map_congr_left ?_
        intro e _
        rw [mul_comm]
      constructor
      · simp [pause, _stateTransfer, _model_automata, hnneg, hrun']
      · simp [pause, _stateTransfer, _model_automata, hnneg, hrun', hclean,
          displacedStore, hcomm]
  · intro hlt
    have hneg : t - t0 < 0 := by linarith
    simp [pause, _stateTransfer, _model_automata, hneg]

/-- Witness for C6: on the pristine one-object model at speed 2,
`resume 0` then `pause 3` displaces the object from 1 to `1 + 2 × 3 = 7`,
and `resume 1` then `pause 0` fails the elapsed-time assert. -/
theorem C6_resume_pause_displacement_witness :
    WF speedModel ∧ speedModel._state = .pristine ∧
    ((speedModel.resume 0).1.pause 3).2 = .ok () ∧
    ((speedModel.resume 0).1.pause 3).1.object_positions = [(5, 7)] ∧
    ((speedModel.resume 1).1.pause 0).2 = .error (.assertion msgPause) := by
  have hwf : WF speedModel := by
    refine ⟨by simp [speedModel, emptyModel], ?_,
      by simp [speedModel, emptyModel],
      by simp [speedModel, emptyModel],
      by simp [speedModel, emptyModel]⟩
    intro e he
    have he' : e = ((5 : ℤ), (1 : ℚ)) := by
      simpa [speedModel, emptyModel] using he
    rw [he']
    norm_num [roundPos, posScale]
  have hrange : ∀ e ∈ speedModel.object_positions,
      0 ≤ e.2 ∧ e.2 ≤ speedModel.length := by
    intro e he
    have he' : e = ((5 : ℤ), (1 : ℚ)) := by
      simpa [speedModel, emptyModel] using he
    rw [he']
    norm_num [speedModel, emptyModel]
  have h := C6_resume_pause_displacement speedModel 0 3 hwf hrange
    (Or.inl rfl)
  have h2 := C6_resume_pause_displacement speedModel 1 0 hwf hrange
    (Or.inl rfl)
  refine ⟨hwf, rfl, (h.1 (by norm_num)).1, ?_, h2.2 (by norm_num)⟩
  rw [(h.1 (by norm_num)).2]
  norm_num [speedModel, emptyModel, roundPos, posScale, round_eq,
    List.filter]

/-- Witness for C10: on the dirty one-object model at speed 0,
`skipTime 1` keeps both stores, fires `change` (`dirty` to `dirty`) and
returns 0; on the moving one-object model the same call is rejected. -/
theorem C10_skipTime_speed_zero_witness :
    collModel.speed = 0 ∧
    collModel.skipTime 1 true = ({ collModel with _state := .dirty }, .ok 0) ∧
    movingObjModel.skipTime 1 true =
      (movingObjModel, .error (.automata .change .moving)) := by
  have hrnd1 : roundPos 1 = 1 := by norm_num [roundPos, posScale]
  have h1 := C10_skipTime_speed_zero collModel 1 rfl (by norm_num)
    (by intro e he
        have he' : e = ((5 : ℤ), (1 : ℚ)) := by
          simpa [collModel, emptyModel] using he
        rw [he']
        exact hrnd1)
    (by intro e he
        have he' : e = ((5 : ℤ), (1 : ℚ)) := by
          simpa [collModel, emptyModel] using he
        rw [he']
        norm_num [collModel, emptyModel])
  have h2 := C10_skipTime_speed_zero movingObjModel 1 rfl (by norm_num)
    (by intro e he
        have he' : e = ((5 : ℤ), (1 : ℚ)) := by
          simpa [movingObjModel, emptyModel] using he
        rw [he']
        exact hrnd1)
    (by intro e he
        have he' : e = ((5 : ℤ), (1 : ℚ)) := by
          simpa [movingObjModel, emptyModel] using he
        rw [he']
        norm_num [movingObjModel, emptyModel])
  refine ⟨rfl, h1.2.1 .dirty rfl, ?_⟩
  have := h2.2.2 rfl
  simpa [movingObjModel, emptyModel] using this

/-- Witness for C7: place object 1 at position 1 on the empty model, then
remove it — the removal returns the payload and both stores are empty
again. -/
theorem C7_put_remove_roundtrip_witness :
    (emptyModel.putObject 1 7 1).2 = .ok () ∧
    ((emptyModel.putObject 1 7 1).1.removeObject 1).2 = .ok 7 ∧
    ((emptyModel.putObject 1 7 1).1.removeObject 1).1.object_positions
      = [] ∧
    ((emptyModel.putObject 1 7 1).1.removeObject 1).1.objects = [] := by
  have hok : (emptyModel.putObject 1 7 1).2 = .ok () := by
    simp [putObject, putIndex, dictContains, dictSet, _stateTransfer,
      _model_automata, emptyModel]
  have h := C7_put_remove_roundtrip emptyModel 1 7 1
    (by simp [emptyModel]) hok
  exact ⟨hok, h.1, by rw [h.2.1]; rfl, by rw [h.2.2]; rfl⟩

/-- C4: a `putObject` with a fresh id whose rounded position exactly equals
the rounded position of an object already in the (sorted) store fails with
the collision error carrying the incoming object, the resident object, the
position, and the model identity — and the placement does not occur: the
returned state is exactly the input state. -/
theorem C4_collision_unmodified {α : Type} (m : ConveyorModel α)
    (obj_id oid : ℤ) (obj obj2 : α) (pos p : ℚ)
    (hWF : WF m)
    (hmem : (oid, p) ∈ m.object_positions)
    (hround : roundPos pos = p)
    (hg : dictGet m.objects oid = some obj2)
    (hfresh : ¬ dictContains m.objects obj_id = true) :
    m.putObject obj_id obj pos =
      (m, .error (.collision obj obj2 p m.model_id)) := by
  have hlen : 0 < m.objects.length := by
    cases hobj : m.objects with
    | nil => rw [hobj] at hg; simp [dictGet] at hg
    | cons e rest => simp [hobj]
  have hmem' : (oid, roundPos pos) ∈ m.object_positions := by
    rw [hround]; exact hmem
  have hidx : m.putIndex obj (roundPos pos) =
      .error (.collision obj obj2 (roundPos pos) m.model_id) :=
    putIndex_collision hWF.1 hmem' hg hlen
  rw [← hround]
  simp [putObject, hfresh, hidx]

/-- Witness for C4: the concrete collision on `collModel` at position 1. -/
theorem C4_collision_unmodified_witness :
    WF collModel ∧ ((5 : ℤ), (1 : ℚ)) ∈ collModel.object_positions ∧
    collModel.putObject 3 7 1 =
      (collModel, .error (.collision 7 9 1 (strWorld, 0))) := by
  have hwf : WF collModel := by
    refine ⟨by simp [collModel, emptyModel], ?_,
      by simp [collModel, emptyModel],
      by simp [collModel, emptyModel],
      by simp [collModel, emptyModel]⟩
    intro e he
    have he' : e = ((5 : ℤ), (1 : ℚ)) := by
      simpa [collModel, emptyModel] using he
    rw [he']
    norm_num [roundPos, posScale]
  have hr1 : roundPos 1 = 1 := by norm_num [roundPos, posScale]
  have hmem : ((5 : ℤ), (1 : ℚ)) ∈ collModel.object_positions := by
    simp [collModel, emptyModel]
  refine ⟨hwf, hmem, ?_⟩
  have h := C4_collision_unmodified collModel 3 5 7 9 1 1 hwf hmem hr1
    (by simp [dictGet, collModel, emptyModel])
    (by simp [dictContains, collModel, emptyModel])
  simpa [collModel, emptyModel] using h

/-- Witness for C1: a concrete collision and each pre-mutation assert leave
the model unchanged; a protocol violation of `putObject` and of
`removeObject` on moving models returns visibly mutated stores; a too-early
`pause` on the moving model fails with the automaton already moved to
`pristine`. -/
theorem C1_failure_mutation_witness :
    (collModel.putObject 2 7 1).2 =
      .error (.collision 7 9 1 (strWorld, 0)) ∧
    (collModel.putObject 2 7 1).1 = collModel ∧
    collModel.putObject 5 7 1 = (collModel, .error (.assertion msgClash)) ∧
    emptyModel.setSpeed 99 = (emptyModel, .error (.assertion msgSpeed)) ∧
    emptyModel.removeObject 1 = (emptyModel, .error .typeError) ∧
    (movingModel.putObject 1 7 0).2 = .error (.automata .change .moving) ∧
    (movingModel.putObject 1 7 0).1.object_positions = [(1, 0)] ∧
    (movingObjModel.removeObject 5).2 = .error (.automata .change .moving) ∧
    (movingObjModel.removeObject 5).1.object_positions = [] ∧
    movingModel.pause (-1) =
      ({ movingModel with _state := .pristine },
        .error (.assertion msgPause)) := by
  have hr : roundPos 1 = 1 := by
    norm_num [roundPos, posScale]
  have hr0 : roundPos 0 = 0 := by
    norm_num [roundPos, posScale]
  have hcol : (collModel.putObject 2 7 1).2 =
      .error (.collision 7 9 1 (strWorld, 0)) := by
    simp [putObject, putIndex, dictContains, dictGet, search_pos,
      collModel, emptyModel, hr]
  have hCc := C1_failure_mutation collModel
  have hCe := C1_failure_mutation emptyModel
  have hCm := C1_failure_mutation movingModel
  have hCo := C1_failure_mutation movingObjModel
  have hput := (hCm.2.2.2.2.1 rfl).1 1 7 0 0
    (by simp [dictContains, movingModel, emptyModel])
    (by simp [putIndex, movingModel, emptyModel])
  have hrem := (hCo.2.2.2.2.1 rfl).2.1 5 0 9
    (by simp [movingObjModel, emptyModel])
    (by simp [dictGet, movingObjModel, emptyModel])
  refine ⟨hcol,
    hCc.1 2 7 1 7 9 1 (strWorld, 0) hcol,
    hCc.2.1 5 7 1 (by simp [dictContains, collModel, emptyModel]),
    hCe.2.2.1 99 (by norm_num [emptyModel]),
    hCe.2.2.2.1 1 (by simp [emptyModel]),
    by rw [hput],
    by rw [hput]; simp [movingModel, emptyModel, hr0],
    by rw [hrem],
    by rw [hrem]; simp [movingObjModel, emptyModel],
    hCm.2.2.2.2.2 (-1) rfl (by norm_num [movingModel, emptyModel])⟩

end ConveyorModel

end Dqnroute
